/-
  Verification of the pglz compression core
  (src/bench/variants/pg_lzcompress_strategy_skip.c, the reference
  "skip-flag" variant, and src/bench/variants/pg_lzcompress_simd.c, the
  SIMD variant restricted to its scalar fallback path).

  The C code is shallowly embedded over byte lists (`List Nat`).  Pointers
  into the source buffer become `Nat` indices; `char` reads go through
  `byteAt` (the `(unsigned char)` view of a byte, i.e. `% 256`); machine
  `int` values that can be negative (strategy fields, pointer differences)
  are `Int`.  Loops are encoded by structural recursion on an explicit
  fuel argument; the top-level entry points pass fuel that provably covers
  every iteration the C loops can perform, so the embedding computes by
  kernel reduction.  Fallible functions return `Except`, with the `error`
  payload recording the bytes (or byte count) produced before failure.
-/
import Mathlib

namespace Pglz

/-! ### Local definitions (constants from the C sources) -/

def PGLZ_MAX_HISTORY_LISTS : Nat := 8192
def PGLZ_HISTORY_SIZE : Nat := 4096
def PGLZ_MAX_MATCH : Nat := 273
def PGLZ_MAX_CHAIN : Nat := 256
def INT_MAX : Int := 2147483647

/-- The `(unsigned char)` view of the byte at index `i` of buffer `x`
(reads past the end are totalized to 0; the proofs establish the bounds
under which they cannot occur). -/
def byteAt (x : List Nat) (i : Nat) : Nat :=
  x.getD i 0 % 256

/-- C `memcmp(x+i, x+j, n) == 0`: the `n` bytes at `i` and at `j` agree. -/
def memcmp (x : List Nat) (i j n : Nat) : Bool :=
  decide (∀ k, k < n → byteAt x (i + k) = byteAt x (j + k))

/-- The scalar fallback of `match_len_simd` in pg_lzcompress_simd.c:
`ext = 0; while (ext < ext_max && a[ext] == b[ext]) ext++;` — the length of
the common prefix of the bytes at `a` and at `b`, capped at the third
argument. -/
def scalarExt (x : List Nat) : Nat → Nat → Nat → Nat
  | _, _, 0 => 0
  | a, b, m + 1 =>
    if byteAt x a = byteAt x b then scalarExt x (a + 1) (b + 1) m + 1 else 0

/-- The byte-by-byte match extension loop of `pglz_find_match`
(strategy_skip variant): `while (ip < end && *ip == *hp && thislen <
PGLZ_MAX_MATCH) { thislen++; ip++; hp++; }`.  The first argument is fuel;
every caller passes `PGLZ_MAX_MATCH`, which covers all iterations because
`thislen` grows by one per step and the loop stops at `PGLZ_MAX_MATCH`. -/
def extendMatch (x : List Nat) : Nat → Nat → Nat → Nat → Nat
  | 0, _, _, thislen => thislen
  | fuel + 1, ip, hp, thislen =>
    if ip < x.length ∧ byteAt x ip = byteAt x hp ∧ thislen < PGLZ_MAX_MATCH then
      extendMatch x fuel (ip + 1) (hp + 1) (thislen + 1)
    else thislen

/-! ### PGLZ_Strategy -/

structure PGLZ_Strategy where
  min_input_size : Int
  max_input_size : Int
  min_comp_rate : Int
  first_success_by : Int
  match_size_good : Int
  match_size_drop : Int
  skip_after_match : Bool
deriving DecidableEq

def PGLZ_strategy_default : PGLZ_Strategy :=
  ⟨32, INT_MAX, 25, 1024, 128, 10, false⟩

def PGLZ_strategy_always : PGLZ_Strategy :=
  ⟨0, INT_MAX, 0, INT_MAX, 128, 6, false⟩

def PGLZ_strategy_skip : PGLZ_Strategy :=
  ⟨32, INT_MAX, 25, 1024, 128, 10, true⟩

/-! ### History store -/

/-- One ring entry: `{ const char *pos; int16 next; uint16 hindex; }`.
`pos` is the index into the source buffer, `next` the chain successor
(−1 = end of chain). -/
structure PGLZ_HistEntry where
  pos : Nat
  next : Int
  hindex : Nat
deriving DecidableEq

/-- The mutable history state of one compression call: the bucket-head
array `hist_start`, the entry ring `hist_entries`, the write cursor and
the recycle flag.  Arrays are modelled as update functions. -/
structure HistState where
  hstart : Nat → Int
  entries : Nat → PGLZ_HistEntry
  hist_next : Nat
  recycle : Bool

/-- The state at entry to `pglz_compress`: every bucket head −1 (the C
code initialises the first `hashsz` heads; only indices below `hashsz`
are ever read, so initialising all of them is observationally the same),
and zero-initialised static entries. -/
def initHist : HistState :=
  { hstart := fun _ => -1
    entries := fun _ => ⟨0, 0, 0⟩
    hist_next := 0
    recycle := false }

/-- `pglz_hist_idx`: the Fibonacci multiply-shift hash of the next four
input bytes (or of the single next byte when fewer than four remain). -/
def pglz_hist_idx (x : List Nat) (s : Nat) (mask : Nat) : Nat :=
  if x.length - s < 4 then byteAt x s &&& mask
  else
    let h := byteAt x s ||| (byteAt x (s + 1) <<< 8) |||
             (byteAt x (s + 2) <<< 16) ||| (byteAt x (s + 3) <<< 24)
    (((h * 2654435761) % 4294967296) >>> 19) &&& mask

/-- The predecessor scan of `pglz_hist_unlink` once past the bucket head:
`pp` points at the `next` field of slot `p`; if it holds `target`, splice
in `repl`.  Fuel bounds the walk at the ring size; on chains respecting
the store invariant the walk always ends before fuel runs out (a cyclic
chain would make the C loop spin forever). -/
def unlinkFrom (entries : Nat → PGLZ_HistEntry) (p target : Nat) (repl : Int) :
    Nat → (Nat → PGLZ_HistEntry)
  | 0 => entries
  | fuel + 1 =>
    let nxt := (entries p).next
    if nxt = -1 then entries
    else if nxt = (target : Int) then
      fun i => if i = p then { entries p with next := repl } else entries i
    else unlinkFrom entries nxt.toNat target repl fuel

/-- `pglz_hist_unlink`: remove ring slot `entry_idx` from the chain of the
bucket it currently belongs to (silently a no-op when the chain does not
hold it, as in the release build). -/
def pglz_hist_unlink (st : HistState) (entry_idx : Nat) : HistState :=
  let e := st.entries entry_idx
  let head := st.hstart e.hindex
  if head = -1 then st
  else if head = (entry_idx : Int) then
    { st with hstart := fun b => if b = e.hindex then e.next else st.hstart b }
  else
    { st with entries := unlinkFrom st.entries head.toNat entry_idx e.next (PGLZ_HISTORY_SIZE + 1) }

/-- `pglz_hist_add`: insert input position `s` at the front of its bucket
chain, recycling (unlinking) the slot's previous occupant once the ring
has wrapped, then advance the write cursor with wrap-around. -/
def pglz_hist_add (st : HistState) (x : List Nat) (s mask : Nat) : HistState :=
  let hindex := pglz_hist_idx x s mask
  let entry_idx := st.hist_next
  let st1 := if st.recycle then pglz_hist_unlink st entry_idx else st
  let st2 : HistState :=
    { st1 with
      entries := fun i => if i = entry_idx then ⟨s, st1.hstart hindex, hindex⟩ else st1.entries i
      hstart := fun b => if b = hindex then (entry_idx : Int) else st1.hstart b }
  if PGLZ_HISTORY_SIZE + 1 ≤ st.hist_next + 1 then
    { st2 with hist_next := 0, recycle := true }
  else
    { st2 with hist_next := st.hist_next + 1 }

/-- The per-byte insertion loop after a match in the non-skip path:
`while (match_len--) { pglz_hist_add(...dp...); dp++; }`. -/
def histAddRange (st : HistState) (x : List Nat) (dp : Nat) : Nat → Nat → HistState
  | 0, _ => st
  | n + 1, mask => histAddRange (pglz_hist_add st x dp mask) x (dp + 1) n mask

/-- A sequence of `pglz_hist_add` calls at the given positions, from the
fresh per-call state — the shape of every insertion history a compression
call produces. -/
def histAddSeq (x : List Nat) (mask : Nat) (ps : List Nat) : HistState :=
  ps.foldl (fun st s => pglz_hist_add st x s mask) initHist

/-! ### Bitstream writer -/

/-- The output state of the compressor: `done` holds the bytes strictly
before the currently reserved control-byte position, `hasCtrl` says
whether a control byte is reserved (`ctrlp` points into the output buffer
rather than at `ctrl_dummy`), `ctrlb` is the pending control-bit
accumulator, `ctrl` the running bit mask (an `unsigned char`), and `cur`
the bytes written after the reserved position. -/
structure BitStream where
  done : List Nat
  hasCtrl : Bool
  ctrlb : Nat
  ctrl : Nat
  cur : List Nat
deriving DecidableEq

def initBS : BitStream :=
  { done := [], hasCtrl := false, ctrlb := 0, ctrl := 0, cur := [] }

/-- Number of output bytes written so far (`bp - bstart`). -/
def bsSize (bs : BitStream) : Nat :=
  bs.done.length + (if bs.hasCtrl then 1 else 0) + bs.cur.length

/-- `pglz_out_ctrl`: when the mask byte is exhausted, flush the pending
accumulator into the reserved position and reserve the next output byte
as the new control byte. -/
def pglz_out_ctrl (bs : BitStream) : BitStream :=
  if bs.ctrl &&& 0xff = 0 then
    { done := bs.done ++ (if bs.hasCtrl then [bs.ctrlb] else []) ++ bs.cur
      hasCtrl := true, ctrlb := 0, ctrl := 1, cur := [] }
  else bs

/-- `pglz_out_literal`: control bit 0, one literal byte (the argument is
converted to `unsigned char`). -/
def pglz_out_literal (bs : BitStream) (byte : Nat) : BitStream :=
  let b := pglz_out_ctrl bs
  { b with cur := b.cur ++ [byte % 256], ctrl := b.ctrl * 2 % 256 }

/-- `pglz_out_tag`: control bit 1, then the 2-byte (length 3–17) or
3-byte (length 18–273) back-reference tag. -/
def pglz_out_tag (bs : BitStream) (len off : Nat) : BitStream :=
  let b := pglz_out_ctrl bs
  let bytes : List Nat :=
    if 17 < len then
      [(((off &&& 0xf00) >>> 4) ||| 0x0f) % 256, (off &&& 0xff) % 256, (len - 18) % 256]
    else
      [(((off &&& 0xf00) >>> 4) ||| (len - 3)) % 256, (off &&& 0xff) % 256]
  { b with ctrlb := b.ctrlb ||| b.ctrl, ctrl := b.ctrl * 2 % 256, cur := b.cur ++ bytes }

/-- The final `*ctrlp = ctrlb` of `pglz_compress`: the produced byte
stream with the pending accumulator patched into its reserved slot. -/
def finalizeBS (bs : BitStream) : List Nat :=
  bs.done ++ (if bs.hasCtrl then [bs.ctrlb] else []) ++ bs.cur

/-! ### Match finder (strategy_skip variant) -/

/-- The chain walk of `pglz_find_match`.  The first `Nat` argument is the
remaining iteration budget, `PGLZ_MAX_CHAIN` at the call site; the C loop
counts `chain_len` up and breaks at `PGLZ_MAX_CHAIN`, which is the same
walk with `budget = PGLZ_MAX_CHAIN - chain_len`.  Returns the best
`(len, off)` and the number of chain entries inspected. -/
def findLoop (x : List Nat) (entries : Nat → PGLZ_HistEntry) (input good_drop : Nat) :
    Nat → Int → Nat → Nat → Nat → Nat × Nat × Nat
  | 0, _, len, off, _ => (len, off, 0)
  | b + 1, hentno, len, off, good_match =>
    if hentno = -1 then (len, off, 0)
    else
      let hent := entries hentno.toNat
      let hp := hent.pos
      let thisoff : Int := (input : Int) - (hp : Int)
      if 0x0fff ≤ thisoff then (len, off, 1)
      else
        let cand : Option Nat :=
          if memcmp x input hp 4 then
            if 16 ≤ len ∧ 4 < len then
              if memcmp x (input + 4) (hp + 4) (len - 4) then
                some (extendMatch x PGLZ_MAX_MATCH (input + len) (hp + len) len)
              else none
            else some (extendMatch x PGLZ_MAX_MATCH (input + 4) (hp + 4) 4)
          else none
        let len2 := match cand with | some t => if len < t then t else len | none => len
        let off2 := match cand with | some t => if len < t then thisoff.toNat else off | none => off
        let hentno2 := hent.next
        if b = 0 then (len2, off2, 1)
        else if hentno2 = -1 then (len2, off2, 1)
        else if good_match ≤ len2 then (len2, off2, 1)
        else
          let r := findLoop x entries input good_drop b hentno2 len2 off2
                     (good_match - good_match * good_drop / 100)
          (r.1, r.2.1, r.2.2 + 1)

/-- `pglz_find_match` of the strategy_skip variant: walk the bucket chain
of the fingerprint at `input`, return the best match if longer than 2. -/
def pglz_find_match (x : List Nat) (hstart : Nat → Int) (entries : Nat → PGLZ_HistEntry)
    (input good_match good_drop mask : Nat) : Option (Nat × Nat) :=
  let r := findLoop x entries input good_drop PGLZ_MAX_CHAIN
             (hstart (pglz_hist_idx x input mask)) 0 0 good_match
  if 2 < r.1 then some (r.1, r.2.1) else none

/-- The number of chain entries one `pglz_find_match` call inspects. -/
def pglz_find_match_visits (x : List Nat) (hstart : Nat → Int)
    (entries : Nat → PGLZ_HistEntry) (input good_match good_drop mask : Nat) : Nat :=
  (findLoop x entries input good_drop PGLZ_MAX_CHAIN
    (hstart (pglz_hist_idx x input mask)) 0 0 good_match).2.2

/-! ### Compressor driver (strategy_skip variant) -/

/-- The tail loop of `pglz_compress` (`while (dp < dend)`) followed by the
final control-byte patch and the closing `result_size >= result_max`
check.  Fuel covers one unit per remaining input byte. -/
def compressTail (x : List Nat) (result_max mask : Nat) :
    Nat → Nat → HistState → BitStream → Except Nat (List Nat)
  | 0, _, _, bs =>
    let out := finalizeBS bs
    if result_max ≤ out.length then .error out.length else .ok out
  | f + 1, dp, hist, bs =>
    if dp < x.length then
      if result_max ≤ bsSize bs then .error (bsSize bs)
      else
        compressTail x result_max mask f (dp + 1) (pglz_hist_add hist x dp mask)
          (pglz_out_literal bs (x.getD dp 0))
    else
      let out := finalizeBS bs
      if result_max ≤ out.length then .error out.length else .ok out

/-- The main loop of `pglz_compress` (`while (dp < dend - 3)`): budget
gates, match finding, tag or literal emission, history insertion, cursor
advance (with the skip-after-match clamp `if (dp > dend) dp = dend`). -/
def compressMain (x : List Nat) (good_match good_drop result_max : Nat)
    (first_success_by : Int) (skip : Bool) (mask : Nat) :
    Nat → Nat → HistState → BitStream → Bool → Except Nat (List Nat)
  | 0, dp, hist, bs, _ => compressTail x result_max mask 0 dp hist bs
  | f + 1, dp, hist, bs, found =>
    if dp + 3 < x.length then
      if result_max ≤ bsSize bs then .error (bsSize bs)
      else if found = false ∧ first_success_by ≤ (bsSize bs : Int) then .error (bsSize bs)
      else
        match pglz_find_match x hist.hstart hist.entries dp good_match good_drop mask with
        | some (match_len, match_off) =>
          let bs2 := pglz_out_tag bs match_len match_off
          if skip then
            compressMain x good_match good_drop result_max first_success_by skip mask f
              (min (dp + match_len) x.length) (pglz_hist_add hist x dp mask) bs2 true
          else
            compressMain x good_match good_drop result_max first_success_by skip mask f
              (dp + match_len) (histAddRange hist x dp match_len mask) bs2 true
        | none =>
          compressMain x good_match good_drop result_max first_success_by skip mask f
            (dp + 1) (pglz_hist_add hist x dp mask) (pglz_out_literal bs (x.getD dp 0)) found
    else compressTail x result_max mask f dp hist bs

/-- `pglz_compress` of the strategy_skip variant.  `.ok out` is a return
value of `out.length` with `out` the bytes written; `.error n` is the
`-1` return, with `n` the number of output bytes written before giving
up. -/
def pglz_compressE (x : List Nat) (strategy : PGLZ_Strategy) : Except Nat (List Nat) :=
  if strategy.match_size_good ≤ 0 ∨ (x.length : Int) < strategy.min_input_size ∨
      strategy.max_input_size < (x.length : Int) then
    .error 0
  else
    let good_matchI : Int :=
      if (PGLZ_MAX_MATCH : Int) < strategy.match_size_good then (PGLZ_MAX_MATCH : Int)
      else if strategy.match_size_good < 17 then 17
      else strategy.match_size_good
    let good_dropI : Int :=
      if strategy.match_size_drop < 0 then 0
      else if 100 < strategy.match_size_drop then 100
      else strategy.match_size_drop
    let need_rateI : Int :=
      if strategy.min_comp_rate < 0 then 0
      else if 99 < strategy.min_comp_rate then 99
      else strategy.min_comp_rate
    let need_rate : Nat := need_rateI.toNat
    let result_max : Nat :=
      if INT_MAX / 100 < (x.length : Int) then (x.length / 100) * (100 - need_rate)
      else x.length * (100 - need_rate) / 100
    let hashsz : Nat :=
      if x.length < 128 then 512
      else if x.length < 256 then 1024
      else if x.length < 512 then 2048
      else if x.length < 1024 then 4096
      else 8192
    let mask := hashsz - 1
    compressMain x good_matchI.toNat good_dropI.toNat result_max strategy.first_success_by
      strategy.skip_after_match mask (x.length + 1) 0 initHist initBS false

/-! ### Decompressor -/

/-- The overlap-aware self-copy of `pglz_decompress`: `while (off < len)
{ memcpy(dp, dp - off, off); len -= off; dp += off; off += off; }
memcpy(dp, dp - off, len);` — appending to the produced output.  Fuel
(`len + 1` at the call site) covers every iteration whenever `off ≥ 1`;
the decompressor rejects `off = 0` before calling (on `off = 0` the C
loop would not terminate). -/
def pglzCopyLoop : Nat → List Nat → Nat → Nat → List Nat
  | 0, out, _, _ => out
  | f + 1, out, off, len =>
    if off < len then
      pglzCopyLoop f (out ++ (out.drop (out.length - off)).take off) (off + off) (len - off)
    else out ++ (out.drop (out.length - off)).take len

def pglz_copy (out : List Nat) (off len : Nat) : List Nat :=
  pglzCopyLoop (len + 1) out off len

/-- The inner item loop of `pglz_decompress`: process up to `k` remaining
items of the current control byte, while input remains and the output is
not full.  Returns the remaining input and the output so far, or `.error`
(the `-1` return) carrying the output written before the failure. -/
def decompItems (raw : Nat) : Nat → Nat → List Nat → List Nat →
    Except (List Nat) (List Nat × List Nat)
  | _, 0, src, out => .ok (src, out)
  | _, _ + 1, [], out => .ok ([], out)
  | ctrl, k + 1, s0 :: rest, out =>
    if out.length < raw then
      if ctrl &&& 1 = 1 then
        match rest with
        | b1 :: rest1 =>
          let len0 := (s0 &&& 0x0f) + 3
          let off := ((s0 &&& 0xf0) <<< 4) ||| b1
          if len0 = 18 then
            match rest1 with
            | b2 :: rest2 =>
              if off = 0 ∨ out.length < off then .error out
              else decompItems raw (ctrl >>> 1) k rest2
                     (pglz_copy out off (min (len0 + b2) (raw - out.length)))
            | [] => .error out
          else
            if off = 0 ∨ out.length < off then .error out
            else decompItems raw (ctrl >>> 1) k rest1
                   (pglz_copy out off (min len0 (raw - out.length)))
        | [] => .error out
      else decompItems raw (ctrl >>> 1) k rest (out ++ [s0])
    else .ok (s0 :: rest, out)

/-- The outer group loop of `pglz_decompress` (`while (sp < srcend && dp <
destend)`): read one control byte, process its items.  Fuel covers one
unit per control byte, hence `src.length + 1` always suffices. -/
def decompLoop (raw : Nat) : Nat → List Nat → List Nat →
    Except (List Nat) (List Nat × List Nat)
  | 0, src, out => .ok (src, out)
  | f + 1, src, out =>
    match src with
    | [] => .ok ([], out)
    | c :: rest =>
      if out.length < raw then
        match decompItems raw c 8 rest out with
        | .error e => .error e
        | .ok (src2, out2) => decompLoop raw f src2 out2
      else .ok (c :: rest, out)

/-- `pglz_decompress`: `.ok out` is a return of `out.length` with `out`
the reconstructed bytes; `.error e` is the `-1` return with `e` the bytes
written before failing.  `check_complete` asks for the strict final
`dp = destend ∧ sp = srcend` check. -/
def pglz_decompressE (src : List Nat) (raw : Nat) (check_complete : Bool) :
    Except (List Nat) (List Nat) :=
  match decompLoop raw (src.length + 1) src [] with
  | .error e => .error e
  | .ok (src2, out) =>
    if check_complete = true ∧ (out.length ≠ raw ∨ src2 ≠ []) then .error out else .ok out

/-! ### Match finder and driver of the SIMD variant (scalar fallback) -/

/-- The chain walk of `pglz_find_match` in pg_lzcompress_simd.c, with the
scalar fallback (`USE_SSE2` undefined) for the match extension: after the
4-byte fast reject, measure the common extension directly (bounded by the
remaining input and `PGLZ_MAX_MATCH - 4`) and quick-reject candidates not
longer than the current best. -/
def findLoopSimd (x : List Nat) (entries : Nat → PGLZ_HistEntry) (input good_drop : Nat) :
    Nat → Int → Nat → Nat → Nat → Nat × Nat × Nat
  | 0, _, len, off, _ => (len, off, 0)
  | b + 1, hentno, len, off, good_match =>
    if hentno = -1 then (len, off, 0)
    else
      let hent := entries hentno.toNat
      let hp := hent.pos
      let thisoff : Int := (input : Int) - (hp : Int)
      if 0x0fff ≤ thisoff then (len, off, 1)
      else
        let cand : Option Nat :=
          if memcmp x input hp 4 then
            let ext_max : Nat :=
              (min ((x.length : Int) - ((input : Int) + 4)) ((PGLZ_MAX_MATCH : Int) - 4)).toNat
            let thislen := 4 + scalarExt x (input + 4) (hp + 4) ext_max
            if thislen ≤ len then none else some thislen
          else none
        let len2 := match cand with | some t => if len < t then t else len | none => len
        let off2 := match cand with | some t => if len < t then thisoff.toNat else off | none => off
        let hentno2 := hent.next
        if b = 0 then (len2, off2, 1)
        else if hentno2 = -1 then (len2, off2, 1)
        else if good_match ≤ len2 then (len2, off2, 1)
        else
          let r := findLoopSimd x entries input good_drop b hentno2 len2 off2
                     (good_match - good_match * good_drop / 100)
          (r.1, r.2.1, r.2.2 + 1)

/-- `pglz_find_match` of the SIMD variant (scalar fallback path). -/
def pglz_find_match_simd (x : List Nat) (hstart : Nat → Int) (entries : Nat → PGLZ_HistEntry)
    (input good_match good_drop mask : Nat) : Option (Nat × Nat) :=
  let r := findLoopSimd x entries input good_drop PGLZ_MAX_CHAIN
             (hstart (pglz_hist_idx x input mask)) 0 0 good_match
  if 2 < r.1 then some (r.1, r.2.1) else none

/-- The main loop of `pglz_compress` in pg_lzcompress_simd.c — identical
to the strategy_skip variant's except that there is no skip branch (every
matched byte is inserted into the history). -/
def compressMainSimd (x : List Nat) (good_match good_drop result_max : Nat)
    (first_success_by : Int) (mask : Nat) :
    Nat → Nat → HistState → BitStream → Bool → Except Nat (List Nat)
  | 0, dp, hist, bs, _ => compressTail x result_max mask 0 dp hist bs
  | f + 1, dp, hist, bs, found =>
    if dp + 3 < x.length then
      if result_max ≤ bsSize bs then .error (bsSize bs)
      else if found = false ∧ first_success_by ≤ (bsSize bs : Int) then .error (bsSize bs)
      else
        match pglz_find_match_simd x hist.hstart hist.entries dp good_match good_drop mask with
        | some (match_len, match_off) =>
          compressMainSimd x good_match good_drop result_max first_success_by mask f
            (dp + match_len) (histAddRange hist x dp match_len mask)
            (pglz_out_tag bs match_len match_off) true
        | none =>
          compressMainSimd x good_match good_drop result_max first_success_by mask f
            (dp + 1) (pglz_hist_add hist x dp mask) (pglz_out_literal bs (x.getD dp 0)) found
    else compressTail x result_max mask f dp hist bs

/-- `pglz_compress` of the SIMD variant (scalar fallback): same preflight,
clamps and hash sizing as the reference; `skip_after_match` is not
implemented by this variant. -/
def pglz_compressSimdE (x : List Nat) (strategy : PGLZ_Strategy) : Except Nat (List Nat) :=
  if strategy.match_size_good ≤ 0 ∨ (x.length : Int) < strategy.min_input_size ∨
      strategy.max_input_size < (x.length : Int) then
    .error 0
  else
    let good_matchI : Int :=
      if (PGLZ_MAX_MATCH : Int) < strategy.match_size_good then (PGLZ_MAX_MATCH : Int)
      else if strategy.match_size_good < 17 then 17
      else strategy.match_size_good
    let good_dropI : Int :=
      if strategy.match_size_drop < 0 then 0
      else if 100 < strategy.match_size_drop then 100
      else strategy.match_size_drop
    let need_rateI : Int :=
      if strategy.min_comp_rate < 0 then 0
      else if 99 < strategy.min_comp_rate then 99
      else strategy.min_comp_rate
    let need_rate : Nat := need_rateI.toNat
    let result_max : Nat :=
      if INT_MAX / 100 < (x.length : Int) then (x.length / 100) * (100 - need_rate)
      else x.length * (100 - need_rate) / 100
    let hashsz : Nat :=
      if x.length < 128 then 512
      else if x.length < 256 then 1024
      else if x.length < 512 then 2048
      else if x.length < 1024 then 4096
      else 8192
    let mask := hashsz - 1
    compressMainSimd x good_matchI.toNat good_dropI.toNat result_max strategy.first_success_by
      mask (x.length + 1) 0 initHist initBS false

/-! ### Specification-side views used by the theorems -/

/-- One item of the compressed stream: a literal byte or a back-reference
`(len, off)` tag. -/
inductive Item where
  | lit (b : Nat)
  | tag (len off : Nat)
deriving DecidableEq

/-- The control bit of an item (literal 0, back-reference 1). -/
def itemBit : Item → Nat
  | .lit _ => 0
  | .tag _ _ => 1

/-- The data bytes of an item, as `pglz_out_literal` / `pglz_out_tag`
write them. -/
def itemBytes : Item → List Nat
  | .lit b => [b % 256]
  | .tag len off =>
    if 17 < len then
      [(((off &&& 0xf00) >>> 4) ||| 0x0f) % 256, (off &&& 0xff) % 256, (len - 18) % 256]
    else
      [(((off &&& 0xf00) >>> 4) ||| (len - 3)) % 256, (off &&& 0xff) % 256]

/-- The number of raw bytes an item reproduces. -/
def itemLen : Item → Nat
  | .lit _ => 1
  | .tag len _ => len

def itemsLen (items : List Item) : Nat :=
  (items.map itemLen).sum

/-- The control byte of a group, LSB first. -/
def ctrlOf : List Item → Nat
  | [] => 0
  | it :: rest => itemBit it + 2 * ctrlOf rest

def flatBytes : List Item → List Nat
  | [] => []
  | it :: rest => itemBytes it ++ flatBytes rest

/-- The canonical serialization of an item sequence: groups of up to
eight items, each preceded by its control byte. -/
def chunkSer (items : List Item) : List Nat :=
  if h : items = [] then []
  else (ctrlOf (items.take 8) :: flatBytes (items.take 8)) ++ chunkSer (items.drop 8)
termination_by items.length
decreasing_by
  simp only [List.length_drop]
  have hne : items.length ≠ 0 := fun hl => h (List.length_eq_zero.mp hl)
  omega

/-- Emission of one item through the bitstream writer. -/
def emitOne (bs : BitStream) : Item → BitStream
  | .lit b => pglz_out_literal bs b
  | .tag len off => pglz_out_tag bs len off

def emitAll (bs : BitStream) (items : List Item) : BitStream :=
  items.foldl emitOne bs

/-- The periodic extension that a valid back-reference self-copy must
produce: `len` bytes continuing the final `off` bytes of `out` with
period `off`. -/
def periodExt (out : List Nat) (off len : Nat) : List Nat :=
  (List.range len).map (fun j => out.getD (out.length - off + j % off) 0)

/-- Ring slot `i` has been written during the current compression call. -/
def written (st : HistState) (i : Nat) : Prop :=
  st.recycle = true ∨ i < st.hist_next

/-- A chain link is either the end sentinel −1 or a written ring slot. -/
def goodIdx (st : HistState) (v : Int) : Prop :=
  v = -1 ∨ (0 ≤ v ∧ v < (PGLZ_HISTORY_SIZE : Int) + 1 ∧ written st v.toNat)

/-- The history-store invariant at input cursor `dp`: the write cursor is
in range, every bucket head is a good link, and every written slot holds
a position strictly before the cursor and a good chain link. -/
def histInv (st : HistState) (dp : Nat) : Prop :=
  st.hist_next ≤ PGLZ_HISTORY_SIZE ∧
  (∀ b, goodIdx st (st.hstart b)) ∧
  (∀ i, i < PGLZ_HISTORY_SIZE + 1 → written st i →
    (st.entries i).pos < dp ∧ goodIdx st ((st.entries i).next))

/-- Validity of an item sequence against source `x` from position `pos`:
literals carry the source byte, tags are in-range back-references whose
`len` bytes repeat the bytes `off` earlier, and positions advance by
`itemLen`. -/
def validSeg (x : List Nat) : Nat → List Item → Prop
  | _, [] => True
  | pos, .lit b :: rest =>
    pos < x.length ∧ b = x.getD pos 0 ∧ b < 256 ∧ validSeg x (pos + 1) rest
  | pos, .tag len off :: rest =>
    3 ≤ len ∧ len ≤ PGLZ_MAX_MATCH ∧ 1 ≤ off ∧ off ≤ 4095 ∧ off ≤ pos ∧
    pos + len ≤ x.length ∧
    (∀ j, j < len → x.getD (pos + j) 0 = x.getD (pos + j - off) 0) ∧
    validSeg x (pos + len) rest

/-- Soundness of a `(len, off)` accumulator of the chain walk at input
cursor `dp`: either still the initial `(0, 0)`, or a genuine match — the
`len` bytes at `dp` repeat the bytes `off` earlier, within the window and
length limits the tag format requires. -/
def matchOK (x : List Nat) (dp len off : Nat) : Prop :=
  (len = 0 ∧ off = 0) ∨
  (4 ≤ len ∧ len ≤ PGLZ_MAX_MATCH ∧ dp + len ≤ x.length ∧
   1 ≤ off ∧ off ≤ 4094 ∧ off ≤ dp ∧
   ∀ j, j < len → byteAt x (dp + j) = byteAt x (dp - off + j))

/-- The length of the output a decompression attempt produced, counting
the partial output of a failed run. -/
def outLen : Except (List Nat) (List Nat) → Nat
  | .error e => e.length
  | .ok l => l.length

/-- The number of output bytes a compression attempt wrote, counting
failed runs. -/
def exceptSize : Except Nat (List Nat) → Nat
  | .error n => n
  | .ok l => l.length

/-- The output length of an intermediate decompressor state (the inner
and outer loops return the remaining input and the output so far). -/
def pairOutLen : Except (List Nat) (List Nat × List Nat) → Nat
  | .error e => e.length
  | .ok (_, out) => out.length

/-! ### Arithmetic helper lemmas for the tag byte layout -/

set_option maxRecDepth 4000

theorem and_hi_split : ∀ hi < 16, ∀ lo < 256, (hi * 256 + lo) &&& 0xf00 = hi * 256 := by
  decide

theorem lor_hi_split : ∀ hi < 16, ∀ lo < 256, (hi * 256) ||| lo = hi * 256 + lo := by
  decide

theorem lor_nib : ∀ a < 16, ∀ c < 16, (a * 16) ||| c = a * 16 + c := by
  decide

theorem and_f0_split : ∀ a < 16, ∀ c < 16, (a * 16 + c) &&& 0xf0 = a * 16 := by
  decide

theorem and_ff (o : Nat) : o &&& 0xff = o % 256 := by
  have h := Nat.and_pow_two_sub_one_eq_mod o 8
  norm_num at h
  exact h

theorem and_0f (o : Nat) : o &&& 0x0f = o % 16 := by
  have h := Nat.and_pow_two_sub_one_eq_mod o 4
  norm_num at h
  exact h

theorem off_and_f00 (off : Nat) (h : off ≤ 4095) : off &&& 0xf00 = off / 256 * 256 := by
  have hs := and_hi_split (off / 256) (by omega) (off % 256) (Nat.mod_lt _ (by norm_num))
  have he : off / 256 * 256 + off % 256 = off := by omega
  rw [he] at hs
  exact hs

theorem hi_shiftr (hi : Nat) : (hi * 256) >>> 4 = hi * 16 := by
  rw [Nat.shiftRight_eq_div_pow]
  omega

theorem hi_shiftl (hi : Nat) : (hi * 16) <<< 4 = hi * 256 := by
  rw [Nat.shiftLeft_eq]
  ring

/-! ### Claim C2: tag byte layout and its decoding -/

/--
C2: for every length in [3, 17] and offset in [1, 4095], `pglz_out_tag`
appends exactly the two bytes `[((off & 0xF00) >> 4) | (len - 3), off & 0xFF]`
to the output, and for every length in [18, 273] exactly the three bytes
`[((off & 0xF00) >> 4) | 0x0F, off & 0xFF, len - 18]`; the decompressor's
tag decoding (`len = (T1 & 0x0F) + 3`, `off = ((T1 & 0xF0) << 4) | T2`,
plus `T3` added to 18 when the low nibble is 0xF) recovers exactly the
same `(len, off)` pair, and the low nibble distinguishes the two forms.
-/
theorem C2_out_tag_encode_decode (bs : BitStream) (len off : Nat)
    (hoff1 : 1 ≤ off) (hoff2 : off ≤ 4095) :
    (3 ≤ len → len ≤ 17 →
      (pglz_out_tag bs len off).cur = (pglz_out_ctrl bs).cur ++
          [((off &&& 0xf00) >>> 4) ||| (len - 3), off &&& 0xff] ∧
      ((((off &&& 0xf00) >>> 4) ||| (len - 3)) &&& 0x0f) + 3 = len ∧
      (((((off &&& 0xf00) >>> 4) ||| (len - 3)) &&& 0xf0) <<< 4) ||| (off &&& 0xff) = off ∧
      (((off &&& 0xf00) >>> 4) ||| (len - 3)) &&& 0x0f ≠ 0x0f) ∧
    (18 ≤ len → len ≤ 273 →
      (pglz_out_tag bs len off).cur = (pglz_out_ctrl bs).cur ++
          [((off &&& 0xf00) >>> 4) ||| 0x0f, off &&& 0xff, len - 18] ∧
      (((off &&& 0xf00) >>> 4) ||| 0x0f) &&& 0x0f = 0x0f ∧
      18 + (len - 18) = len ∧
      (((((off &&& 0xf00) >>> 4) ||| 0x0f) &&& 0xf0) <<< 4) ||| (off &&& 0xff) = off) := by
  have hhi : off / 256 < 16 := by omega
  have hlo : off % 256 < 256 := Nat.mod_lt _ (by norm_num)
  have h1 : off &&& 0xf00 = off / 256 * 256 := off_and_f00 off hoff2
  have h2 : off &&& 0xff = off % 256 := and_ff off
  constructor
  · intro hl3 hl17
    have hd : len - 3 < 16 := by omega
    have hb0 : ((off &&& 0xf00) >>> 4) ||| (len - 3) = off / 256 * 16 + (len - 3) := by
      rw [h1, hi_shiftr, lor_nib _ hhi _ hd]
    refine ⟨?_, ?_, ?_, ?_⟩
    · simp only [pglz_out_tag, if_neg (by omega : ¬ 17 < len)]
      rw [h1, h2, hi_shiftr, lor_nib _ hhi _ hd]
      have hlt : off / 256 * 16 + (len - 3) < 256 := by omega
      simp [Nat.mod_eq_of_lt hlt, Nat.mod_eq_of_lt hlo]
    · rw [hb0, and_0f]
      omega
    · rw [hb0]
      have : off / 256 * 16 + (len - 3) &&& 0xf0 = off / 256 * 16 :=
        and_f0_split _ hhi _ hd
      rw [this, hi_shiftl, h2, lor_hi_split _ hhi _ hlo]
      omega
    · rw [hb0, and_0f]
      omega
  · intro hl18 hl273
    have hb0 : ((off &&& 0xf00) >>> 4) ||| 0x0f = off / 256 * 16 + 15 := by
      rw [h1, hi_shiftr, lor_nib _ hhi 15 (by norm_num)]
    refine ⟨?_, ?_, by omega, ?_⟩
    · simp only [pglz_out_tag, if_pos (by omega : 17 < len)]
      rw [h1, h2, hi_shiftr, lor_nib _ hhi 15 (by norm_num)]
      have hlt : off / 256 * 16 + 15 < 256 := by omega
      simp [Nat.mod_eq_of_lt hlt, Nat.mod_eq_of_lt hlo, Nat.mod_eq_of_lt (by omega : len - 18 < 256)]
    · rw [hb0, and_0f]
      omega
    · rw [hb0]
      have : off / 256 * 16 + 15 &&& 0xf0 = off / 256 * 16 :=
        and_f0_split _ hhi 15 (by norm_num)
      rw [this, hi_shiftl, h2, lor_hi_split _ hhi _ hlo]
      omega

/-- Witness for C2 at the concrete pairs `(len, off) = (5, 300)` (short
form) and `(100, 4095)` (long form). -/
theorem C2_out_tag_encode_decode_witness :
    ((pglz_out_tag initBS 5 300).cur = (pglz_out_ctrl initBS).cur ++
        [((300 &&& 0xf00) >>> 4) ||| (5 - 3), 300 &&& 0xff] ∧
      ((((300 &&& 0xf00) >>> 4) ||| (5 - 3)) &&& 0x0f) + 3 = 5 ∧
      (((((300 &&& 0xf00) >>> 4) ||| (5 - 3)) &&& 0xf0) <<< 4) ||| (300 &&& 0xff) = 300 ∧
      (((300 &&& 0xf00) >>> 4) ||| (5 - 3)) &&& 0x0f ≠ 0x0f) ∧
    ((pglz_out_tag initBS 100 4095).cur = (pglz_out_ctrl initBS).cur ++
        [((4095 &&& 0xf00) >>> 4) ||| 0x0f, 4095 &&& 0xff, 100 - 18] ∧
      (((4095 &&& 0xf00) >>> 4) ||| 0x0f) &&& 0x0f = 0x0f ∧
      18 + (100 - 18) = 100 ∧
      (((((4095 &&& 0xf00) >>> 4) ||| 0x0f) &&& 0xf0) <<< 4) ||| (4095 &&& 0xff) = 4095) :=
  ⟨(C2_out_tag_encode_decode initBS 5 300 (by decide) (by decide)).1 (by decide) (by decide),
   (C2_out_tag_encode_decode initBS 100 4095 (by decide) (by decide)).2 (by decide) (by decide)⟩

/-! ### The overlap-aware self-copy -/

theorem periodExt_length (out : List Nat) (off len : Nat) :
    (periodExt out off len).length = len := by
  simp [periodExt]

theorem periodExt_getD (out : List Nat) (off len j : Nat) (hj : j < len) :
    (periodExt out off len).getD j 0 = out.getD (out.length - off + j % off) 0 := by
  rw [List.getD_eq_getElem _ _ (by simpa [periodExt_length] using hj)]
  simp [periodExt]

theorem periodExt_getElem (out : List Nat) (off len j : Nat)
    (hj : j < (periodExt out off len).length) :
    (periodExt out off len)[j] = out.getD (out.length - off + j % off) 0 := by
  simp [periodExt]

theorem drop_take_periodExt (out : List Nat) (off len : Nat)
    (h2 : off ≤ out.length) (hlen : len ≤ off) :
    (out.drop (out.length - off)).take len = periodExt out off len := by
  apply List.ext_getElem
  · simp [periodExt_length]
    omega
  · intro i hi1 hi2
    rw [List.getElem_take, List.getElem_drop]
    have hi : i < len := by simp [periodExt_length] at hi2; exact hi2
    have hmod : i % off = i := Nat.mod_eq_of_lt (by omega)
    have hb : out.length - off + i < out.length := by
      simp [List.length_take, List.length_drop] at hi1
      omega
    rw [show (periodExt out off len)[i] =
        out.getD (out.length - off + i % off) 0 from by simp [periodExt]]
    rw [hmod, List.getD_eq_getElem _ _ hb]

theorem periodExt_step (out : List Nat) (off len : Nat)
    (h1 : 1 ≤ off) (h2 : off ≤ out.length) (hc : off < len) :
    periodExt out off off ++ periodExt (out ++ periodExt out off off) (off + off) (len - off) =
      periodExt out off len := by
  have hL' : (out ++ periodExt out off off).length = out.length + off := by
    simp [periodExt_length]
  apply List.ext_getElem
  · simp [periodExt_length]
    omega
  · intro i hi1 hi2
    have hi : i < len := by simpa [periodExt_length] using hi2
    rw [show (periodExt out off len)[i] =
        out.getD (out.length - off + i % off) 0 from by simp [periodExt]]
    by_cases hio : i < off
    · rw [List.getElem_append_left (by simp [periodExt_length]; omega)]
      simp [periodExt]
    · push_neg at hio
      rw [List.getElem_append_right (by simp [periodExt_length]; omega)]
      rw [periodExt_getElem]
      rw [periodExt_length, hL']
      set r := (i - off) % (off + off) with hr
      have hrlt : r < off + off := Nat.mod_lt _ (by omega)
      have hrmod : r % off = i % off := by
        have h3 : off ∣ off + off := ⟨2, by ring⟩
        have h4 : (i - off) % (off + off) % off = (i - off) % off := Nat.mod_mod_of_dvd _ h3
        have h5 : (i - off) % off = i % off := by
          conv_rhs => rw [show i = (i - off) + off by omega]
          rw [Nat.add_mod_right]
        rw [← hr] at h4
        rw [h4, h5]
      have hidx : out.length + off - (off + off) + r = out.length - off + r := by omega
      rw [hidx]
      by_cases hro : r < off
      · have : r = i % off := by
          rw [← hrmod, Nat.mod_eq_of_lt hro]
        rw [List.getD_append _ _ _ _ (by omega), this]
      · push_neg at hro
        rw [List.getD_append_right _ _ _ _ (by omega)]
        have hidx2 : out.length - off + r - out.length = r - off := by omega
        rw [hidx2, periodExt_getD _ _ _ _ (by omega)]
        have : (r - off) % off = i % off := by
          rw [← hrmod]
          conv_rhs => rw [show r = (r - off) + off by omega]
          rw [Nat.add_mod_right]
        have hlt : r - off < off := by omega
        rw [Nat.mod_eq_of_lt hlt] at this
        rw [this, Nat.mod_mod_of_dvd _ (dvd_refl off)]

theorem pglzCopyLoop_periodExt :
    ∀ (f : Nat) (out : List Nat) (off len : Nat), 1 ≤ off → off ≤ out.length → len + 1 ≤ f →
      pglzCopyLoop f out off len = out ++ periodExt out off len := by
  intro f
  induction f with
  | zero => intro out off len h1 h2 hf; omega
  | succ f ih =>
    intro out off len h1 h2 hf
    by_cases hc : off < len
    · rw [show pglzCopyLoop (f + 1) out off len =
          pglzCopyLoop f (out ++ (out.drop (out.length - off)).take off) (off + off) (len - off) from by
        simp [pglzCopyLoop, hc]]
      rw [drop_take_periodExt out off off h2 (le_refl _)]
      rw [ih _ (off + off) (len - off) (by omega) (by simp [periodExt_length]; omega) (by omega)]
      rw [List.append_assoc]
      rw [periodExt_step out off len h1 h2 hc]
    · rw [show pglzCopyLoop (f + 1) out off len =
          out ++ (out.drop (out.length - off)).take len from by
        simp [pglzCopyLoop, hc]]
      rw [drop_take_periodExt out off len h2 (by omega)]

theorem pglz_copy_spec (out : List Nat) (off len : Nat)
    (h1 : 1 ≤ off) (h2 : off ≤ out.length) :
    pglz_copy out off len = out ++ periodExt out off len :=
  pglzCopyLoop_periodExt (len + 1) out off len h1 h2 (le_refl _)

theorem pglzCopyLoop_length_le :
    ∀ (f : Nat) (out : List Nat) (off len : Nat),
      (pglzCopyLoop f out off len).length ≤ out.length + len := by
  intro f
  induction f with
  | zero => intro out off len; simp [pglzCopyLoop]
  | succ f ih =>
    intro out off len
    by_cases hc : off < len
    · rw [show pglzCopyLoop (f + 1) out off len =
          pglzCopyLoop f (out ++ (out.drop (out.length - off)).take off) (off + off) (len - off) from by
        simp [pglzCopyLoop, hc]]
      have h := ih (out ++ (out.drop (out.length - off)).take off) (off + off) (len - off)
      have hsl : ((out.drop (out.length - off)).take off).length ≤ off := by
        simp [List.length_take, List.length_drop]
      simp only [List.length_append] at h
      omega
    · rw [show pglzCopyLoop (f + 1) out off len =
          out ++ (out.drop (out.length - off)).take len from by
        simp [pglzCopyLoop, hc]]
      have hsl : ((out.drop (out.length - off)).take len).length ≤ len := by
        simp [List.length_take, List.length_drop]
      simp only [List.length_append]
      omega

theorem pglz_copy_length_le (out : List Nat) (off len : Nat) :
    (pglz_copy out off len).length ≤ out.length + len :=
  pglzCopyLoop_length_le (len + 1) out off len


/--
C6: for every back-reference with `0 < off ≤` the number of bytes already
written, the doubling copy loop of `pglz_decompress` produces exactly the
periodic extension of the preceding output: the result appends `len`
bytes, and each newly written byte at position `j` equals the byte at
position `j - off`, i.e. the output continues the pattern of period
`off`.
-/
theorem C6_copy_periodic (out : List Nat) (off len : Nat)
    (h1 : 0 < off) (h2 : off ≤ out.length) :
    pglz_copy out off len = out ++ periodExt out off len ∧
    (pglz_copy out off len).length = out.length + len ∧
    (∀ j, out.length ≤ j → j < out.length + len →
      (pglz_copy out off len).getD j 0 = (pglz_copy out off len).getD (j - off) 0) := by
  have hspec := pglz_copy_spec out off len h1 h2
  refine ⟨hspec, by rw [hspec]; simp [periodExt_length], ?_⟩
  intro j hj1 hj2
  rw [hspec]
  set t := j - out.length with ht
  have htlen : t < len := by omega
  have hjt : j = out.length + t := by omega
  rw [hjt, List.getD_append_right _ _ _ _ (by omega)]
  have hsub : out.length + t - out.length = t := by omega
  rw [hsub, periodExt_getD _ _ _ _ htlen]
  by_cases hto : t < off
  · have hin : out.length + t - off < out.length := by omega
    rw [List.getD_append _ _ _ _ hin]
    have hidx : out.length + t - off = out.length - off + t := by omega
    rw [hidx, Nat.mod_eq_of_lt hto]
  · push_neg at hto
    have hge : out.length ≤ out.length + t - off := by omega
    rw [List.getD_append_right _ _ _ _ hge]
    have hidx : out.length + t - off - out.length = t - off := by omega
    rw [hidx, periodExt_getD _ _ _ _ (by omega)]
    have hmod : (t - off) % off = t % off := by
      rw [Nat.mod_eq_sub_mod hto]
    rw [hmod]

/-- Witness for C6: the spec scenario S2, expanding "AB" from
`off = 2, len = 18` (plus the concrete expansion checked by reduction). -/
theorem C6_copy_periodic_witness :
    (pglz_copy [65, 66] 2 18 = [65, 66] ++ periodExt [65, 66] 2 18 ∧
      (pglz_copy [65, 66] 2 18).length = 2 + 18 ∧
      (∀ j, 2 ≤ j → j < 2 + 18 →
        (pglz_copy [65, 66] 2 18).getD j 0 = (pglz_copy [65, 66] 2 18).getD (j - 2) 0)) ∧
    pglz_copy [65, 66] 2 18 =
      [65, 66, 65, 66, 65, 66, 65, 66, 65, 66, 65, 66, 65, 66, 65, 66, 65, 66, 65, 66] :=
  ⟨by
    have h := C6_copy_periodic [65, 66] 2 18 (by decide) (by decide)
    simpa using h,
   by rfl⟩

/-! ### Claim C5: the decompressor never writes past the raw size -/

theorem decompItems_le (raw : Nat) :
    ∀ (k ctrl : Nat) (src out : List Nat), out.length ≤ raw →
      pairOutLen (decompItems raw ctrl k src out) ≤ raw := by
  intro k
  induction k with
  | zero => intro ctrl src out hle; simp [decompItems, pairOutLen, hle]
  | succ k ih =>
    intro ctrl src out hle
    cases src with
    | nil => simp [decompItems, pairOutLen, hle]
    | cons s0 rest =>
      by_cases hg : out.length < raw
      · simp only [decompItems, if_pos hg]
        by_cases hb : ctrl &&& 1 = 1
        · simp only [if_pos hb]
          cases rest with
          | nil => simpa [pairOutLen] using hle
          | cons b1 rest1 =>
            by_cases h18 : (s0 &&& 0x0f) + 3 = 18
            · simp only [if_pos h18]
              cases rest1 with
              | nil => simpa [pairOutLen] using hle
              | cons b2 rest2 =>
                by_cases hoff : ((s0 &&& 0xf0) <<< 4) ||| b1 = 0 ∨
                    out.length < ((s0 &&& 0xf0) <<< 4) ||| b1
                · simpa [hoff, pairOutLen] using hle
                · simp only [if_neg hoff]
                  apply ih
                  have hc := pglz_copy_length_le out (((s0 &&& 0xf0) <<< 4) ||| b1)
                    (min ((s0 &&& 0x0f) + 3 + b2) (raw - out.length))
                  omega
            · simp only [if_neg h18]
              by_cases hoff : ((s0 &&& 0xf0) <<< 4) ||| b1 = 0 ∨
                  out.length < ((s0 &&& 0xf0) <<< 4) ||| b1
              · simpa [hoff, pairOutLen] using hle
              · simp only [if_neg hoff]
                apply ih
                have hc := pglz_copy_length_le out (((s0 &&& 0xf0) <<< 4) ||| b1)
                  (min ((s0 &&& 0x0f) + 3) (raw - out.length))
                omega
        · simp only [if_neg hb]
          apply ih
          simp
          omega
      · simp [decompItems, if_neg hg, pairOutLen, hle]

theorem decompLoop_le (raw : Nat) :
    ∀ (f : Nat) (src out : List Nat), out.length ≤ raw →
      pairOutLen (decompLoop raw f src out) ≤ raw := by
  intro f
  induction f with
  | zero => intro src out hle; simp [decompLoop, pairOutLen, hle]
  | succ f ih =>
    intro src out hle
    cases src with
    | nil => simp [decompLoop, pairOutLen, hle]
    | cons c rest =>
      by_cases hg : out.length < raw
      · rcases hdi : decompItems raw c 8 rest out with e | ⟨src2, out2⟩
        · have h := decompItems_le raw 8 c rest out hle
          rw [hdi] at h
          simp only [pairOutLen] at h
          simp [decompLoop, if_pos hg, hdi, pairOutLen, h]
        · have h := decompItems_le raw 8 c rest out hle
          rw [hdi] at h
          simp only [pairOutLen] at h
          simp only [decompLoop, if_pos hg, hdi]
          exact ih src2 out2 h
      · simp [decompLoop, if_neg hg, pairOutLen, hle]

/--
C5: for every input stream, well-formed or not, and every `rawsize`,
`pglz_decompress` never writes a byte at or beyond `dest + rawsize`: the
output produced (also by a failing run, whose partial output the error
value records) never exceeds `rawsize` bytes — every literal copy is
guarded by `dp < destend` and every back-reference length is clamped to
`destend - dp` first.  The output only ever grows during a run, so the
final bound covers every intermediate write.
-/
theorem C5_decompress_never_overflows (src : List Nat) (raw : Nat) (check_complete : Bool) :
    outLen (pglz_decompressE src raw check_complete) ≤ raw := by
  unfold pglz_decompressE
  rcases hdl : decompLoop raw (src.length + 1) src [] with e | ⟨src2, out⟩
  · have h := decompLoop_le raw (src.length + 1) src [] (by simp)
    rw [hdl] at h
    simpa [outLen, pairOutLen] using h
  · have h := decompLoop_le raw (src.length + 1) src [] (by simp)
    rw [hdl] at h
    simp only [pairOutLen] at h
    dsimp only
    split_ifs <;> simpa [outLen] using h


/-! ### Claim C3: decompressor failure semantics -/

/--
C3: `pglz_decompress` returns −1 whenever a decoded tag has offset zero,
or an offset greater than the number of output bytes already produced, or
the tag's bytes extend past the end of the compressed input (a lone tag
byte, or a missing third byte when the low nibble is 0xF) — and such an
inner-loop failure propagates through the outer loop to the entry point —
and, with `check_complete` set, whenever processing ends without the
output cursor exactly at `dest + rawsize` and the input cursor exactly at
`source + slen`.
-/
theorem C3_decompress_rejects :
    (∀ (raw ctrl k b0 b1 : Nat) (rest out : List Nat),
      ctrl &&& 1 = 1 → out.length < raw →
      (((b0 &&& 0xf0) <<< 4) ||| b1 = 0 ∨ out.length < ((b0 &&& 0xf0) <<< 4) ||| b1) →
      decompItems raw ctrl (k + 1) (b0 :: b1 :: rest) out = .error out) ∧
    (∀ (raw ctrl k b0 : Nat) (out : List Nat),
      ctrl &&& 1 = 1 → out.length < raw →
      decompItems raw ctrl (k + 1) [b0] out = .error out) ∧
    (∀ (raw ctrl k b0 b1 : Nat) (out : List Nat),
      ctrl &&& 1 = 1 → out.length < raw → (b0 &&& 0x0f) + 3 = 18 →
      decompItems raw ctrl (k + 1) [b0, b1] out = .error out) ∧
    (∀ (raw f c : Nat) (rest out e : List Nat),
      out.length < raw → decompItems raw c 8 rest out = .error e →
      decompLoop raw (f + 1) (c :: rest) out = .error e) ∧
    (∀ (src : List Nat) (raw : Nat) (check_complete : Bool) (e : List Nat),
      decompLoop raw (src.length + 1) src [] = .error e →
      pglz_decompressE src raw check_complete = .error e) ∧
    (∀ (src : List Nat) (raw : Nat) (src2 out : List Nat),
      decompLoop raw (src.length + 1) src [] = .ok (src2, out) →
      out.length ≠ raw ∨ src2 ≠ [] →
      pglz_decompressE src raw true = .error out) := by
  refine ⟨?_, ?_, ?_, ?_, ?_, ?_⟩
  · intro raw ctrl k b0 b1 rest out hb hg hoff
    simp only [decompItems, if_pos hg, if_pos hb]
    by_cases h18 : (b0 &&& 0x0f) + 3 = 18
    · simp only [if_pos h18]
      cases rest with
      | nil => rfl
      | cons b2 rest2 => simp [hoff]
    · simp only [if_neg h18]
      simp [hoff]
  · intro raw ctrl k b0 out hb hg
    simp [decompItems, hg, hb]
  · intro raw ctrl k b0 b1 out hb hg h18
    simp [decompItems, hg, hb, h18]
  · intro raw f c rest out e hg hdi
    simp [decompLoop, hg, hdi]
  · intro src raw check_complete e h
    simp [pglz_decompressE, h]
  · intro src raw src2 out h hcond
    simp only [pglz_decompressE, h]
    rw [if_pos ⟨trivial, hcond⟩]

/-- Witness for C3: concrete zero-offset, truncated-tag and trailing
mismatch streams (the first is the spec scenario S5). -/
theorem C3_decompress_rejects_witness :
    decompItems 10 1 8 [0, 0] [] = .error [] ∧
    decompItems 10 1 8 [16] [] = .error [] ∧
    decompItems 10 1 8 [15, 0] [] = .error [] ∧
    decompLoop 10 4 [1, 0, 0] [] = .error [] ∧
    pglz_decompressE [1, 0, 0] 10 true = .error [] ∧
    pglz_decompressE [0, 65] 5 true = .error [65] :=
  ⟨C3_decompress_rejects.1 10 1 7 0 0 [] [] (by decide) (by decide) (by decide),
   C3_decompress_rejects.2.1 10 1 7 16 [] (by decide) (by decide),
   C3_decompress_rejects.2.2.1 10 1 7 15 0 [] (by decide) (by decide) (by decide),
   C3_decompress_rejects.2.2.2.1 10 3 1 [0, 0] [] [] (by decide)
     (C3_decompress_rejects.1 10 1 7 0 0 [] [] (by decide) (by decide) (by decide)),
   C3_decompress_rejects.2.2.2.2.1 [1, 0, 0] 10 true []
     (C3_decompress_rejects.2.2.2.1 10 3 1 [0, 0] [] [] (by decide)
       (C3_decompress_rejects.1 10 1 7 0 0 [] [] (by decide) (by decide) (by decide))),
   C3_decompress_rejects.2.2.2.2.2 [0, 65] 5 [] [65] (by rfl) (by decide)⟩


/-! ### Claim C7: ring wrap and the recycle flag -/

theorem hist_unlink_next_recycle (st : HistState) (i : Nat) :
    (pglz_hist_unlink st i).hist_next = st.hist_next ∧
    (pglz_hist_unlink st i).recycle = st.recycle := by
  simp only [pglz_hist_unlink]
  split_ifs <;> simp

theorem hist_add_next_recycle (st : HistState) (x : List Nat) (s mask : Nat) :
    (pglz_hist_add st x s mask).hist_next =
      (if PGLZ_HISTORY_SIZE + 1 ≤ st.hist_next + 1 then 0 else st.hist_next + 1) ∧
    (pglz_hist_add st x s mask).recycle =
      (st.recycle || decide (PGLZ_HISTORY_SIZE + 1 ≤ st.hist_next + 1)) := by
  have hu := hist_unlink_next_recycle st st.hist_next
  cases hb : st.recycle with
  | false =>
    simp only [pglz_hist_add, hb, Bool.false_eq_true, if_false]
    split_ifs with hw
    · simp [hw]
    · simp [hw]
  | true =>
    simp only [pglz_hist_add, hb, if_true]
    split_ifs with hw
    · simp [hw]
    · simp [hw, hu.2, hb]


theorem histAddSeq_aux (x : List Nat) (mask : Nat) :
    ∀ (ps : List Nat) (st : HistState) (n : Nat),
      st.hist_next = n % (PGLZ_HISTORY_SIZE + 1) →
      st.recycle = decide (PGLZ_HISTORY_SIZE + 1 ≤ n) →
      (ps.foldl (fun st s => pglz_hist_add st x s mask) st).hist_next =
        (n + ps.length) % (PGLZ_HISTORY_SIZE + 1) ∧
      (ps.foldl (fun st s => pglz_hist_add st x s mask) st).recycle =
        decide (PGLZ_HISTORY_SIZE + 1 ≤ n + ps.length) := by
  intro ps
  induction ps with
  | nil => intro st n h1 h2; simpa using ⟨h1, h2⟩
  | cons p rest ih =>
    intro st n h1 h2
    simp only [List.foldl_cons, List.length_cons]
    have hadd := hist_add_next_recycle st x p mask
    simp only [PGLZ_HISTORY_SIZE] at h1 h2 hadd
    have hn1 : (pglz_hist_add st x p mask).hist_next = (n + 1) % (PGLZ_HISTORY_SIZE + 1) := by
      rw [hadd.1, h1]
      simp only [PGLZ_HISTORY_SIZE]
      split_ifs with h <;> omega
    have hr1 : (pglz_hist_add st x p mask).recycle =
        decide (PGLZ_HISTORY_SIZE + 1 ≤ n + 1) := by
      rw [hadd.2, h2, h1]
      simp only [PGLZ_HISTORY_SIZE]
      by_cases hc : 4096 + 1 ≤ n
      · have hc1 : 4096 + 1 ≤ n + 1 := by omega
        simp [hc, hc1]
      · have hmod : n % 4097 = n := Nat.mod_eq_of_lt (by omega)
        rw [hmod]
        simp [hc]
    have h := ih (pglz_hist_add st x p mask) (n + 1) hn1 hr1
    have he : n + 1 + rest.length = n + (rest.length + 1) := by omega
    rw [he] at h
    exact h

theorem histAddSeq_next_recycle (x : List Nat) (mask : Nat) (ps : List Nat) :
    (histAddSeq x mask ps).hist_next = ps.length % (PGLZ_HISTORY_SIZE + 1) ∧
    (histAddSeq x mask ps).recycle = decide (PGLZ_HISTORY_SIZE + 1 ≤ ps.length) := by
  have h := histAddSeq_aux x mask ps initHist 0 (by simp [initHist]) (by simp [initHist])
  simpa [histAddSeq] using h

/--
C7 counterexample: the history ring has `PGLZ_HISTORY_SIZE + 1 = 4097`
slots, so after 4096 inserts (one compression call inserting positions
0..4095) the recycle flag is still false: the 4097th insert — the first
insert "after the first 4096" — is reached with the flag clear and
recycles no slot, contradicting the claim that every insert after the
first 4096 recycles exactly one slot.  The flag is first set only after
insert 4097.
-/
theorem C7_counterexample_ring_off_by_one :
    (histAddSeq (List.replicate 4100 0) 511 (List.range 4096)).recycle = false ∧
    (histAddSeq (List.replicate 4100 0) 511 (List.range 4097)).recycle = true := by
  constructor
  · have h := (histAddSeq_next_recycle (List.replicate 4100 0) 511 (List.range 4096)).2
    rw [List.length_range] at h
    rw [h]
    rfl
  · have h := (histAddSeq_next_recycle (List.replicate 4100 0) 511 (List.range 4097)).2
    rw [List.length_range] at h
    rw [h]
    rfl

/--
C7 (amended): in every sequence of history inserts a compression call
performs, the first `PGLZ_HISTORY_SIZE + 1 = 4097` inserts are strictly
non-recycling (`pglz_hist_add` is reached with the recycle flag still
false, hence unlinks no ring slot), every insert after the first 4097
recycles exactly one slot (the flag is set from then on), and the write
cursor `hist_next` always stays in `[0, 4096]`.
-/
theorem C7_hist_ring_wrap (x : List Nat) (mask : Nat) (ps : List Nat) :
    (histAddSeq x mask ps).hist_next = ps.length % (PGLZ_HISTORY_SIZE + 1) ∧
    (histAddSeq x mask ps).hist_next ≤ PGLZ_HISTORY_SIZE ∧
    ((histAddSeq x mask ps).recycle = true ↔ PGLZ_HISTORY_SIZE + 1 ≤ ps.length) := by
  have h := histAddSeq_next_recycle x mask ps
  refine ⟨h.1, ?_, ?_⟩
  · rw [h.1]
    have := Nat.mod_lt ps.length (show 0 < PGLZ_HISTORY_SIZE + 1 by simp)
    omega
  · rw [h.2]
    simp


/-! ### Claim C8: bounded chain traversal -/

theorem ite_trd_le {P : Prop} [Decidable P] (X Y : Nat × Nat × Nat) (n : Nat)
    (hX : X.2.2 ≤ n) (hY : Y.2.2 ≤ n) : (if P then X else Y).2.2 ≤ n := by
  split_ifs <;> assumption

theorem findLoop_visits_le (x : List Nat) (entries : Nat → PGLZ_HistEntry)
    (input good_drop : Nat) :
    ∀ (b : Nat) (hentno : Int) (len off good_match : Nat),
      (findLoop x entries input good_drop b hentno len off good_match).2.2 ≤ b := by
  intro b
  induction b with
  | zero => intro hentno len off good_match; simp [findLoop]
  | succ b ih =>
    intro hentno len off good_match
    by_cases h1 : hentno = -1
    · simp [findLoop, h1]
    · rw [findLoop, if_neg h1]
      apply ite_trd_le _ _ _ (by simp)
      apply ite_trd_le _ _ _ (by simp)
      apply ite_trd_le _ _ _ (by simp)
      apply ite_trd_le _ _ _ (by simp)
      exact Nat.succ_le_succ (ih _ _ _ _)

/--
C8: one call of `pglz_find_match` inspects at most `PGLZ_MAX_CHAIN = 256`
chain entries: the chain walk (`findLoop`, whose entry-visit count
`pglz_find_match_visits` reports) stops after 256 entries even when the
chain is longer, so the match finder always terminates with bounded work
per call, for every history state and input position.
-/
theorem C8_find_match_chain_bound (x : List Nat) (hstart : Nat → Int)
    (entries : Nat → PGLZ_HistEntry) (input good_match good_drop mask : Nat) :
    pglz_find_match_visits x hstart entries input good_match good_drop mask ≤ PGLZ_MAX_CHAIN :=
  findLoop_visits_le x entries input good_drop PGLZ_MAX_CHAIN _ 0 0 good_match


/-! ### Serialization of the bitstream writer -/

theorem chunkSer_nil : chunkSer [] = [] := by
  rw [chunkSer]
  simp

theorem chunkSer_cons (it : Item) (rest : List Item) :
    chunkSer (it :: rest) =
      (ctrlOf (it :: rest.take 7) :: flatBytes (it :: rest.take 7)) ++ chunkSer (rest.drop 7) := by
  rw [chunkSer]
  simp [List.take_succ_cons, List.drop_succ_cons]

theorem lor_two_pow_of_lt {cb k : Nat} (h : cb < 2 ^ k) : cb ||| 2 ^ k = cb + 2 ^ k := by
  have := Nat.mul_add_lt_is_or (i := k) h 1
  rw [Nat.mul_one] at this
  rw [Nat.lor_comm, ← this, Nat.add_comm]

theorem two_pow_mod_256_eq {k : Nat} (hk : k ≤ 8) : 2 ^ k % 256 = if k = 8 then 0 else 2 ^ k := by
  interval_cases k <;> decide

theorem emitAll_cons (bs : BitStream) (it : Item) (rest : List Item) :
    emitAll bs (it :: rest) = emitAll (emitOne bs it) rest := by
  simp [emitAll]

theorem emitOne_fresh (done0 cur : List Nat) (cb : Nat) (it : Item) :
    emitOne ⟨done0, true, cb, 0, cur⟩ it =
      ⟨done0 ++ [cb] ++ cur, true, itemBit it, 2, itemBytes it⟩ := by
  cases it with
  | lit b => simp [emitOne, pglz_out_literal, pglz_out_ctrl, itemBit, itemBytes]
  | tag l o => simp [emitOne, pglz_out_tag, pglz_out_ctrl, itemBit, itemBytes]

theorem emitOne_mid (done0 cur : List Nat) (cb k : Nat) (it : Item)
    (_hk1 : 1 ≤ k) (hklt : k < 8) (hcb : cb < 2 ^ k) :
    emitOne ⟨done0, true, cb, 2 ^ k, cur⟩ it =
      ⟨done0, true, cb + itemBit it * 2 ^ k, 2 ^ (k + 1) % 256, cur ++ itemBytes it⟩ := by
  have hlt : (2 ^ k : Nat) < 256 := by
    calc (2 ^ k : Nat) < 2 ^ 8 := Nat.pow_lt_pow_right (by norm_num) hklt
    _ = 256 := by norm_num
  have hnz : ¬ ((2 ^ k : Nat) &&& 0xff = 0) := by
    rw [and_ff, Nat.mod_eq_of_lt hlt]
    positivity
  have hnoflush : pglz_out_ctrl ⟨done0, true, cb, 2 ^ k, cur⟩ =
      ⟨done0, true, cb, 2 ^ k, cur⟩ := by
    simp [pglz_out_ctrl, hnz]
  have hshift : (2 ^ k : Nat) * 2 % 256 = 2 ^ (k + 1) % 256 := by
    rw [show (2 : Nat) ^ k * 2 = 2 ^ (k + 1) by ring]
  cases it with
  | lit b =>
    simp only [emitOne, pglz_out_literal, hnoflush, itemBit, itemBytes]
    simp [hshift]
  | tag l o =>
    simp only [emitOne, pglz_out_tag, hnoflush, itemBit, itemBytes]
    rw [lor_two_pow_of_lt hcb]
    simp [hshift]

theorem emitAll_finalize (items : List Item) :
    ∀ (done0 cur : List Nat) (cb k : Nat), 1 ≤ k → k ≤ 8 → cb < 2 ^ k →
      finalizeBS (emitAll ⟨done0, true, cb, 2 ^ k % 256, cur⟩ items) =
        done0 ++ (cb + 2 ^ k * ctrlOf (items.take (8 - k))) ::
          (cur ++ flatBytes (items.take (8 - k)) ++ chunkSer (items.drop (8 - k))) := by
  induction items with
  | nil =>
    intro done0 cur cb k hk1 hk8 hcb
    simp [emitAll, finalizeBS, ctrlOf, flatBytes, chunkSer_nil]
  | cons it rest ih =>
    intro done0 cur cb k hk1 hk8 hcb
    rw [emitAll_cons]
    by_cases hk : k = 8
    · subst hk
      rw [show (2 ^ 8 % 256 : Nat) = 0 from by norm_num]
      rw [emitOne_fresh]
      have hIH := ih (done0 ++ [cb] ++ cur) (itemBytes it) (itemBit it) 1 (by norm_num)
        (by norm_num) (by cases it <;> simp [itemBit])
      norm_num at hIH
      rw [show done0 ++ [cb] ++ cur = done0 ++ cb :: cur from by simp]
      rw [hIH]
      rw [show (8 : Nat) - 8 = 0 from rfl, List.take_zero, List.drop_zero, chunkSer_cons]
      simp [ctrlOf, flatBytes, List.append_assoc]
    · have hklt : k < 8 := by omega
      have hc2 : (2 ^ k % 256 : Nat) = 2 ^ k := by
        rw [two_pow_mod_256_eq (by omega), if_neg hk]
      rw [hc2]
      rw [emitOne_mid done0 cur cb k it hk1 hklt hcb]
      rw [ih done0 (cur ++ itemBytes it) (cb + itemBit it * 2 ^ k) (k + 1) (by omega) (by omega)
        (by have hb : itemBit it ≤ 1 := by cases it <;> simp [itemBit]
            have h2 : (2 : Nat) ^ (k + 1) = 2 ^ k + 2 ^ k := by ring
            nlinarith [hcb])]
      have htake : (it :: rest).take (8 - k) = it :: rest.take (8 - (k + 1)) := by
        rw [show 8 - k = (8 - (k + 1)) + 1 by omega]
        simp
      have hdrop : (it :: rest).drop (8 - k) = rest.drop (8 - (k + 1)) := by
        rw [show 8 - k = (8 - (k + 1)) + 1 by omega]
        simp
      rw [htake, hdrop]
      simp only [ctrlOf, flatBytes, List.append_assoc]
      congr 2
      ring

theorem emit_serializes (items : List Item) :
    finalizeBS (emitAll initBS items) = chunkSer items := by
  cases items with
  | nil => simp [emitAll, finalizeBS, initBS, chunkSer_nil]
  | cons it rest =>
    rw [emitAll_cons]
    have hone : emitOne initBS it = ⟨[], true, itemBit it, 2, itemBytes it⟩ := by
      cases it with
      | lit b => simp [emitOne, pglz_out_literal, pglz_out_ctrl, itemBit, itemBytes, initBS]
      | tag l o => simp [emitOne, pglz_out_tag, pglz_out_ctrl, itemBit, itemBytes, initBS]
    rw [hone]
    have hIH := emitAll_finalize rest [] (itemBytes it) (itemBit it) 1 (by norm_num) (by norm_num)
      (by cases it <;> simp [itemBit])
    norm_num at hIH
    rw [hIH]
    rw [chunkSer_cons]
    simp [ctrlOf, flatBytes, List.append_assoc]


/-! ### Match extension characterization -/

theorem scalarExt_le (x : List Nat) : ∀ (m a b : Nat), scalarExt x a b m ≤ m := by
  intro m
  induction m with
  | zero => intro a b; simp [scalarExt]
  | succ m ih =>
    intro a b
    rw [scalarExt]
    split_ifs
    · exact Nat.succ_le_succ (ih _ _)
    · exact Nat.zero_le _

theorem scalarExt_spec (x : List Nat) : ∀ (m a b : Nat),
    ∀ k, k < scalarExt x a b m → byteAt x (a + k) = byteAt x (b + k) := by
  intro m
  induction m with
  | zero => intro a b k hk; simp [scalarExt] at hk
  | succ m ih =>
    intro a b k hk
    rw [scalarExt] at hk
    split_ifs at hk with heq
    · cases k with
      | zero => simpa using heq
      | succ k =>
        have := ih (a + 1) (b + 1) k (by omega)
        have he : a + 1 + k = a + (k + 1) := by omega
        have he2 : b + 1 + k = b + (k + 1) := by omega
        rw [he, he2] at this
        exact this
    · omega

theorem scalarExt_le_of_mismatch (x : List Nat) : ∀ (m a b k : Nat),
    byteAt x (a + k) ≠ byteAt x (b + k) → scalarExt x a b m ≤ k := by
  intro m
  induction m with
  | zero => intro a b k _; simp [scalarExt]
  | succ m ih =>
    intro a b k hne
    rw [scalarExt]
    split_ifs with heq
    · cases k with
      | zero => simp at hne; exact absurd heq hne
      | succ k =>
        have := ih (a + 1) (b + 1) k (by
          have he : a + 1 + k = a + (k + 1) := by omega
          have he2 : b + 1 + k = b + (k + 1) := by omega
          rw [he, he2]
          exact hne)
        omega
    · exact Nat.zero_le _

theorem scalarExt_add (x : List Nat) : ∀ (c m a b : Nat),
    (∀ k, k < c → byteAt x (a + k) = byteAt x (b + k)) → c ≤ m →
    scalarExt x a b m = c + scalarExt x (a + c) (b + c) (m - c) := by
  intro c
  induction c with
  | zero => intro m a b _ _; simp
  | succ c ih =>
    intro m a b hpre hcm
    obtain ⟨m', rfl⟩ : ∃ m', m = m' + 1 := ⟨m - 1, by omega⟩
    rw [scalarExt]
    rw [if_pos (by simpa using hpre 0 (by omega))]
    have := ih m' (a + 1) (b + 1) (fun k hk => by
      have he : a + 1 + k = a + (k + 1) := by omega
      have he2 : b + 1 + k = b + (k + 1) := by omega
      rw [he, he2]
      exact hpre (k + 1) (by omega)) (by omega)
    rw [this]
    have he : a + 1 + c = a + (c + 1) := by omega
    have he2 : b + 1 + c = b + (c + 1) := by omega
    have he3 : m' + 1 - (c + 1) = m' - c := by omega
    rw [he, he2, he3]
    omega

theorem extendMatch_eq (x : List Nat) : ∀ (fuel t ip hp : Nat),
    t ≤ PGLZ_MAX_MATCH → PGLZ_MAX_MATCH - t ≤ fuel →
    extendMatch x fuel ip hp t =
      t + scalarExt x ip hp (min (x.length - ip) (PGLZ_MAX_MATCH - t)) := by
  intro fuel
  induction fuel with
  | zero =>
    intro t ip hp ht hf
    have : PGLZ_MAX_MATCH - t = 0 := by omega
    rw [extendMatch, this]
    simp [scalarExt]
  | succ fuel ih =>
    intro t ip hp ht hf
    rw [extendMatch]
    by_cases hC : ip < x.length ∧ byteAt x ip = byteAt x hp ∧ t < PGLZ_MAX_MATCH
    · rw [if_pos hC]
      rw [ih (t + 1) (ip + 1) (hp + 1) (by omega) (by omega)]
      obtain ⟨m', hm⟩ : ∃ m', min (x.length - ip) (PGLZ_MAX_MATCH - t) = m' + 1 :=
        ⟨min (x.length - ip) (PGLZ_MAX_MATCH - t) - 1, by
          simp only [PGLZ_MAX_MATCH] at *
          omega⟩
      rw [hm, scalarExt, if_pos hC.2.1]
      have : min (x.length - (ip + 1)) (PGLZ_MAX_MATCH - (t + 1)) = m' := by
        simp only [PGLZ_MAX_MATCH] at *
        omega
      rw [this]
      omega
    · rw [if_neg hC]
      push_neg at hC
      by_cases h1 : ip < x.length
      · by_cases h3 : t < PGLZ_MAX_MATCH
        · have h2 := hC h1
          have hne : byteAt x ip ≠ byteAt x hp := fun he => absurd h3 (by simpa [he] using h2)
          obtain ⟨m', hm⟩ : ∃ m', min (x.length - ip) (PGLZ_MAX_MATCH - t) = m' + 1 :=
            ⟨min (x.length - ip) (PGLZ_MAX_MATCH - t) - 1, by
              simp only [PGLZ_MAX_MATCH] at *
              omega⟩
          rw [hm, scalarExt, if_neg hne]
          omega
        · have : min (x.length - ip) (PGLZ_MAX_MATCH - t) = 0 := by omega
          rw [this]
          simp [scalarExt]
      · have : min (x.length - ip) (PGLZ_MAX_MATCH - t) = 0 := by
          have : x.length - ip = 0 := by omega
          omega
        rw [this]
        simp [scalarExt]


/-! ### Soundness of the match finder -/

theorem ite_matchOK (x : List Nat) (dp : Nat) {P : Prop} [Decidable P]
    (X Y : Nat × Nat × Nat) (hX : matchOK x dp X.1 X.2.1) (hY : matchOK x dp Y.1 Y.2.1) :
    matchOK x dp (if P then X else Y).1 (if P then X else Y).2.1 := by
  split_ifs <;> assumption

theorem step_matchOK (x : List Nat) (dp hp len off : Nat) (t? : Option Nat)
    (hm : matchOK x dp len off) (hp_lt : hp < dp) (hoff2 : dp - hp ≤ 4094)
    (hc : ∀ t, t? = some t → 4 ≤ t ∧ t ≤ PGLZ_MAX_MATCH ∧ dp + t ≤ x.length ∧
      ∀ j, j < t → byteAt x (dp + j) = byteAt x (hp + j)) :
    matchOK x dp
      (match t? with | some t => if len < t then t else len | none => len)
      (match t? with
       | some t => if len < t then ((dp : Int) - (hp : Int)).toNat else off
       | none => off) := by
  rcases t? with _ | t
  · simpa using hm
  · simp only []
    split_ifs with hlt
    · obtain ⟨h4, h273, hL, hprop⟩ := hc t rfl
      right
      have htn : ((dp : Int) - (hp : Int)).toNat = dp - hp := by omega
      rw [htn]
      refine ⟨h4, h273, hL, by omega, hoff2, by omega, ?_⟩
      intro j hj
      have hidx : dp - (dp - hp) + j = hp + j := by omega
      rw [hidx]
      exact hprop j hj
    · simpa using hm

theorem tail3_matchOK (x : List Nat) (dp : Nat) {P1 P2 P3 : Prop}
    [Decidable P1] [Decidable P2] [Decidable P3]
    (len2 off2 : Nat) (r : Nat × Nat × Nat)
    (hX : matchOK x dp len2 off2) (hr : matchOK x dp r.1 r.2.1) :
    matchOK x dp
      (if P1 then (len2, off2, 1) else if P2 then (len2, off2, 1)
       else if P3 then (len2, off2, 1) else (r.1, r.2.1, r.2.2 + 1)).1
      (if P1 then (len2, off2, 1) else if P2 then (len2, off2, 1)
       else if P3 then (len2, off2, 1) else (r.1, r.2.1, r.2.2 + 1)).2.1 := by
  split_ifs <;> simpa

theorem memcmp_spec (x : List Nat) (i j n : Nat) (h : memcmp x i j n = true) :
    ∀ k, k < n → byteAt x (i + k) = byteAt x (j + k) :=
  of_decide_eq_true h

theorem cand_sound (x : List Nat) (dp hp len off : Nat)
    (hm : matchOK x dp len off) (hdp4 : dp + 4 ≤ x.length) :
    ∀ t, (if memcmp x dp hp 4 = true then
        if 16 ≤ len ∧ 4 < len then
          if memcmp x (dp + 4) (hp + 4) (len - 4) = true then
            some (extendMatch x PGLZ_MAX_MATCH (dp + len) (hp + len) len)
          else none
        else some (extendMatch x PGLZ_MAX_MATCH (dp + 4) (hp + 4) 4)
      else none) = some t →
      4 ≤ t ∧ t ≤ PGLZ_MAX_MATCH ∧ dp + t ≤ x.length ∧
      ∀ j, j < t → byteAt x (dp + j) = byteAt x (hp + j) := by
  intro t ht
  split_ifs at ht with hmc hspec hmemN
  · -- speculative long-match confirmation
    have mem4 := memcmp_spec x dp hp 4 hmc
    have memN := memcmp_spec x (dp + 4) (hp + 4) (len - 4) hmemN
    rcases hm with ⟨h0, _⟩ | ⟨h4', h273', hL', _, _, _, _⟩
    · omega
    have hpre : ∀ k, k < len → byteAt x (dp + k) = byteAt x (hp + k) := by
      intro k hk
      by_cases hk4 : k < 4
      · exact mem4 k hk4
      · have := memN (k - 4) (by omega)
        have he1 : dp + 4 + (k - 4) = dp + k := by omega
        have he2 : hp + 4 + (k - 4) = hp + k := by omega
        rw [he1, he2] at this
        exact this
    injection ht with ht
    subst ht
    rw [extendMatch_eq x PGLZ_MAX_MATCH len (dp + len) (hp + len) h273' (by omega)]
    have hsle := scalarExt_le x (min (x.length - (dp + len)) (PGLZ_MAX_MATCH - len))
      (dp + len) (hp + len)
    have hssp := scalarExt_spec x (min (x.length - (dp + len)) (PGLZ_MAX_MATCH - len))
      (dp + len) (hp + len)
    refine ⟨by omega, ?_, ?_, ?_⟩
    · simp only [PGLZ_MAX_MATCH] at *
      omega
    · simp only [PGLZ_MAX_MATCH] at *
      omega
    · intro j hj
      by_cases hjl : j < len
      · exact hpre j hjl
      · have := hssp (j - len) (by omega)
        have he1 : dp + len + (j - len) = dp + j := by omega
        have he2 : hp + len + (j - len) = hp + j := by omega
        rw [he1, he2] at this
        exact this
  · -- plain extension from the 4 confirmed bytes
    have mem4 := memcmp_spec x dp hp 4 hmc
    injection ht with ht
    subst ht
    rw [extendMatch_eq x PGLZ_MAX_MATCH 4 (dp + 4) (hp + 4) (by simp [PGLZ_MAX_MATCH])
      (by simp [PGLZ_MAX_MATCH])]
    have hsle := scalarExt_le x (min (x.length - (dp + 4)) (PGLZ_MAX_MATCH - 4))
      (dp + 4) (hp + 4)
    have hssp := scalarExt_spec x (min (x.length - (dp + 4)) (PGLZ_MAX_MATCH - 4))
      (dp + 4) (hp + 4)
    refine ⟨by omega, ?_, ?_, ?_⟩
    · simp only [PGLZ_MAX_MATCH] at *
      omega
    · simp only [PGLZ_MAX_MATCH] at *
      omega
    · intro j hj
      by_cases hj4 : j < 4
      · exact mem4 j hj4
      · have := hssp (j - 4) (by omega)
        have he1 : dp + 4 + (j - 4) = dp + j := by omega
        have he2 : hp + 4 + (j - 4) = hp + j := by omega
        rw [he1, he2] at this
        exact this

theorem findLoop_sound (x : List Nat) (st : HistState) (dp good_drop : Nat)
    (hinv : histInv st dp) (hdp4 : dp + 4 ≤ x.length) :
    ∀ (b : Nat) (hentno : Int) (len off good : Nat),
      goodIdx st hentno → matchOK x dp len off →
      matchOK x dp (findLoop x st.entries dp good_drop b hentno len off good).1
        (findLoop x st.entries dp good_drop b hentno len off good).2.1 := by
  intro b
  induction b with
  | zero =>
    intro hentno len off good _ hm
    simpa [findLoop] using hm
  | succ b ih =>
    intro hentno len off good hg hm
    by_cases h1 : hentno = -1
    · simpa [findLoop, h1] using hm
    · rw [findLoop, if_neg h1]
      rcases hg with hg | ⟨hg0, hglt, hgw⟩
      · exact absurd hg h1
      have hent := hinv.2.2 hentno.toNat (by
        simp only [PGLZ_HISTORY_SIZE] at hglt ⊢
        omega) hgw
      have hp_lt : (st.entries hentno.toNat).pos < dp := hent.1
      by_cases hbrk : (0x0fff : Int) ≤ (dp : Int) - ((st.entries hentno.toNat).pos : Int)
      · rw [if_pos hbrk]
        simpa using hm
      · rw [if_neg hbrk]
        have hoff2 : dp - (st.entries hentno.toNat).pos ≤ 4094 := by omega
        cases hcand : (if memcmp x dp (st.entries hentno.toNat).pos 4 = true then
            if 16 ≤ len ∧ 4 < len then
              if memcmp x (dp + 4) ((st.entries hentno.toNat).pos + 4) (len - 4) = true then
                some (extendMatch x PGLZ_MAX_MATCH (dp + len)
                  ((st.entries hentno.toNat).pos + len) len)
              else none
            else some (extendMatch x PGLZ_MAX_MATCH (dp + 4)
              ((st.entries hentno.toNat).pos + 4) 4)
          else none) with
        | none =>
          refine tail3_matchOK x dp _ _ _ (by simpa using hm) ?_
          simpa using ih (st.entries hentno.toNat).next len off
            (good - good * good_drop / 100) hent.2 hm
        | some t =>
          obtain ⟨ht4, ht273, htL, htprop⟩ :=
            cand_sound x dp (st.entries hentno.toNat).pos len off hm hdp4 t hcand
          have hstep : matchOK x dp (if len < t then t else len)
              (if len < t then ((dp : Int) - ((st.entries hentno.toNat).pos : Int)).toNat
               else off) := by
            split_ifs with hlt
            · right
              have htn : ((dp : Int) - ((st.entries hentno.toNat).pos : Int)).toNat =
                  dp - (st.entries hentno.toNat).pos := by omega
              rw [htn]
              refine ⟨ht4, ht273, htL, by omega, hoff2, by omega, ?_⟩
              intro j hj
              have hidx : dp - (dp - (st.entries hentno.toNat).pos) + j =
                  (st.entries hentno.toNat).pos + j := by omega
              rw [hidx]
              exact htprop j hj
            · exact hm
          refine tail3_matchOK x dp _ _ _ (by simpa using hstep) ?_
          simpa using ih (st.entries hentno.toNat).next _ _
            (good - good * good_drop / 100) hent.2 hstep

theorem pglz_find_match_sound (x : List Nat) (st : HistState)
    (dp good_match good_drop mask : Nat) (l o : Nat)
    (hinv : histInv st dp) (hdp4 : dp + 4 ≤ x.length)
    (h : pglz_find_match x st.hstart st.entries dp good_match good_drop mask = some (l, o)) :
    4 ≤ l ∧ l ≤ PGLZ_MAX_MATCH ∧ dp + l ≤ x.length ∧ 1 ≤ o ∧ o ≤ 4094 ∧ o ≤ dp ∧
      ∀ j, j < l → byteAt x (dp + j) = byteAt x (dp - o + j) := by
  have hs := findLoop_sound x st dp good_drop hinv hdp4 PGLZ_MAX_CHAIN
    (st.hstart (pglz_hist_idx x dp mask)) 0 0 good_match (hinv.2.1 _) (Or.inl ⟨rfl, rfl⟩)
  rw [pglz_find_match] at h
  split_ifs at h with h2
  · injection h with h
    have hA := congrArg Prod.fst h
    have hB := congrArg Prod.snd h
    simp only [] at hA hB
    rcases hs with ⟨hz, _⟩ | hok
    · exact absurd h2 (by omega)
    · rw [← hA, ← hB]
      exact hok


theorem written_mono_of (a b : HistState)
    (hr : a.recycle = true → b.recycle = true)
    (hn : a.hist_next ≤ b.hist_next ∨ b.recycle = true) :
    ∀ i, written a i → written b i := by
  intro i hw
  rcases hw with hw | hw
  · exact Or.inl (hr hw)
  · rcases hn with hn | hn
    · exact Or.inr (by omega)
    · exact Or.inl hn

theorem goodIdx_mono (a b : HistState) (hmono : ∀ i, written a i → written b i)
    (v : Int) (h : goodIdx a v) : goodIdx b v := by
  rcases h with h | ⟨h0, h1, h2⟩
  · exact Or.inl h
  · exact Or.inr ⟨h0, h1, hmono _ h2⟩

theorem unlinkFrom_fields (target : Nat) (repl : Int) :
    ∀ (fuel : Nat) (entries : Nat → PGLZ_HistEntry) (p i : Nat),
      (unlinkFrom entries p target repl fuel i).pos = (entries i).pos ∧
      (unlinkFrom entries p target repl fuel i).hindex = (entries i).hindex ∧
      ((unlinkFrom entries p target repl fuel i).next = (entries i).next ∨
        (unlinkFrom entries p target repl fuel i).next = repl) := by
  intro fuel
  induction fuel with
  | zero => intro entries p i; simp [unlinkFrom]
  | succ fuel ih =>
    intro entries p i
    rw [unlinkFrom]
    split_ifs with h1 h2
    · simp
    · by_cases hip : i = p
      · subst hip
        simp
      · simp [hip]
    · exact ih entries _ i

theorem hist_unlink_inv (st : HistState) (dp : Nat) (idx : Nat)
    (hinv : histInv st dp) (hwr : written st idx) (hidx : idx < PGLZ_HISTORY_SIZE + 1) :
    histInv (pglz_hist_unlink st idx) dp ∧
    (pglz_hist_unlink st idx).hist_next = st.hist_next ∧
    (pglz_hist_unlink st idx).recycle = st.recycle := by
  obtain ⟨hn, hstart_good, hent⟩ := hinv
  have hrepl : goodIdx st (st.entries idx).next := (hent idx hidx hwr).2
  refine ⟨?_, (hist_unlink_next_recycle st idx).1, (hist_unlink_next_recycle st idx).2⟩
  have hwm : ∀ i, written st i → written (pglz_hist_unlink st idx) i := by
    intro i hw
    rcases hw with hw | hw
    · exact Or.inl (by rw [(hist_unlink_next_recycle st idx).2]; exact hw)
    · exact Or.inr (by rw [(hist_unlink_next_recycle st idx).1]; exact hw)
  have hwm2 : ∀ i, written (pglz_hist_unlink st idx) i → written st i := by
    intro i hw
    rcases hw with hw | hw
    · exact Or.inl (by rw [← (hist_unlink_next_recycle st idx).2]; exact hw)
    · exact Or.inr (by rw [← (hist_unlink_next_recycle st idx).1]; exact hw)
  rw [pglz_hist_unlink]
  split_ifs with h1 h2
  · exact ⟨hn, hstart_good, hent⟩
  · refine ⟨hn, ?_, ?_⟩
    · intro b
      dsimp only
      split_ifs with hb
      · exact hrepl
      · exact hstart_good b
    · intro i hi hw
      exact hent i hi hw
  · refine ⟨hn, ?_, ?_⟩
    · intro b
      exact hstart_good b
    · intro i hi hw
      have hf := unlinkFrom_fields idx (st.entries idx).next (PGLZ_HISTORY_SIZE + 1)
        st.entries (st.hstart (st.entries idx).hindex).toNat i
      have hold := hent i hi hw
      dsimp only
      refine ⟨?_, ?_⟩
      · rw [hf.1]
        exact hold.1
      · rcases hf.2.2 with hnx | hnx
        · rw [hnx]
          exact hold.2
        · rw [hnx]
          exact hrepl


theorem histInv_mono (st : HistState) (d d' : Nat) (h : histInv st d) (hdd : d ≤ d') :
    histInv st d' := by
  obtain ⟨hn, hs, he⟩ := h
  refine ⟨hn, hs, ?_⟩
  intro i hi hw
  exact ⟨by have := (he i hi hw).1; omega, (he i hi hw).2⟩

theorem histInv_init (dp : Nat) : histInv initHist dp := by
  refine ⟨by simp [initHist, PGLZ_HISTORY_SIZE], ?_, ?_⟩
  · intro b
    exact Or.inl rfl
  · intro i _ hw
    rcases hw with hw | hw
    · simp [initHist] at hw
    · simp [initHist] at hw

theorem histInv_add (st : HistState) (x : List Nat) (dp mask : Nat)
    (hinv : histInv st dp) :
    histInv (pglz_hist_add st x dp mask) (dp + 1) := by
  have hn := hinv.1
  set hindex := pglz_hist_idx x dp mask with hhid
  set st1 := if st.recycle = true then pglz_hist_unlink st st.hist_next else st with hst1
  have hst1p : histInv st1 dp ∧ st1.hist_next = st.hist_next ∧ st1.recycle = st.recycle := by
    rw [hst1]
    split_ifs with hr
    · exact hist_unlink_inv st dp st.hist_next hinv (Or.inl hr) (by omega)
    · exact ⟨hinv, rfl, rfl⟩
  obtain ⟨⟨h1n, h1s, h1e⟩, h1next, h1rec⟩ := hst1p
  set st2 : HistState :=
    { st1 with
      entries := fun i => if i = st.hist_next then ⟨dp, st1.hstart hindex, hindex⟩ else st1.entries i
      hstart := fun b => if b = hindex then (st.hist_next : Int) else st1.hstart b } with hst2
  have h2e : ∀ i, st2.entries i =
      if i = st.hist_next then (⟨dp, st1.hstart hindex, hindex⟩ : PGLZ_HistEntry)
      else st1.entries i := fun _ => rfl
  have h2s : ∀ b, st2.hstart b =
      if b = hindex then (st.hist_next : Int) else st1.hstart b := fun _ => rfl
  rw [show pglz_hist_add st x dp mask =
      if PGLZ_HISTORY_SIZE + 1 ≤ st.hist_next + 1 then
        { st2 with hist_next := 0, recycle := true }
      else { st2 with hist_next := st.hist_next + 1 } from rfl]
  split_ifs with hw
  · -- ring wraps: hist_next 4096 → 0, recycle set
    have hmono : ∀ (v : Int), goodIdx st1 v →
        goodIdx { st2 with hist_next := 0, recycle := true } v :=
      fun v hv => goodIdx_mono st1 _ (fun _ _ => Or.inl rfl) v hv
    refine ⟨Nat.zero_le _, ?_, ?_⟩
    · intro b
      show goodIdx _ (st2.hstart b)
      rw [h2s b]
      split_ifs with hb
      · exact Or.inr ⟨by positivity, by omega, Or.inl rfl⟩
      · exact hmono _ (h1s b)
    · intro i hi _
      show (st2.entries i).pos < dp + 1 ∧ goodIdx _ (st2.entries i).next
      rw [h2e i]
      split_ifs with hieq
      · exact ⟨Nat.lt_succ_self dp, hmono _ (h1s hindex)⟩
      · have hwi : written st1 i := by
          show st1.recycle = true ∨ i < st1.hist_next
          rw [h1rec, h1next]
          right
          omega
        have hold := h1e i hi hwi
        exact ⟨by omega, hmono _ hold.2⟩
  · -- no wrap: hist_next increments
    have hmono : ∀ (v : Int), goodIdx st1 v →
        goodIdx { st2 with hist_next := st.hist_next + 1 } v := by
      intro v hv
      refine goodIdx_mono st1 _ ?_ v hv
      intro i hwi
      rcases hwi with h | h
      · exact Or.inl h
      · right
        show i < st.hist_next + 1
        rw [h1next] at h
        omega
    refine ⟨by show st.hist_next + 1 ≤ PGLZ_HISTORY_SIZE; omega, ?_, ?_⟩
    · intro b
      show goodIdx _ (st2.hstart b)
      rw [h2s b]
      split_ifs with hb
      · refine Or.inr ⟨by positivity, by omega, Or.inr ?_⟩
        show ((st.hist_next : Int)).toNat < st.hist_next + 1
        omega
      · exact hmono _ (h1s b)
    · intro i hi hwi
      show (st2.entries i).pos < dp + 1 ∧ goodIdx _ (st2.entries i).next
      rw [h2e i]
      split_ifs with hieq
      · exact ⟨Nat.lt_succ_self dp, hmono _ (h1s hindex)⟩
      · have hwi1 : written st1 i := by
          show st1.recycle = true ∨ i < st1.hist_next
          rw [h1rec, h1next]
          rcases hwi with h | h
          · left
            exact h1rec ▸ (h : st1.recycle = true)
          · right
            have h' : i < st.hist_next + 1 := h
            omega
        have hold := h1e i hi hwi1
        exact ⟨by omega, hmono _ hold.2⟩

theorem histAddRange_inv (x : List Nat) :
    ∀ (n : Nat) (st : HistState) (dp mask : Nat), histInv st dp →
      histInv (histAddRange st x dp n mask) (dp + n) := by
  intro n
  induction n with
  | zero => intro st dp mask h; simpa [histAddRange] using h
  | succ n ih =>
    intro st dp mask h
    rw [histAddRange]
    have := ih (pglz_hist_add st x dp mask) (dp + 1) mask (histInv_add st x dp mask h)
    have he : dp + 1 + n = dp + (n + 1) := by omega
    rw [he] at this
    exact this

theorem getD_lt_256 (x : List Nat) (hbytes : ∀ b ∈ x, b < 256) (i : Nat) :
    x.getD i 0 < 256 := by
  by_cases hi : i < x.length
  · rw [List.getD_eq_getElem x 0 hi]
    exact hbytes _ (List.getElem_mem hi)
  · rw [List.getD_eq_default x 0 (by omega)]
    norm_num

theorem byteAt_eq_getD (x : List Nat) (hbytes : ∀ b ∈ x, b < 256) (i : Nat) :
    byteAt x i = x.getD i 0 := by
  rw [byteAt, Nat.mod_eq_of_lt (getD_lt_256 x hbytes i)]

theorem itemsLen_cons (it : Item) (r : List Item) :
    itemsLen (it :: r) = itemLen it + itemsLen r := by
  simp [itemsLen]

theorem compressTail_emits (x : List Nat) (result_max mask : Nat)
    (hbytes : ∀ b ∈ x, b < 256) :
    ∀ (f dp : Nat) (hist : HistState) (bs : BitStream) (out : List Nat),
      x.length ≤ dp + f → dp ≤ x.length →
      compressTail x result_max mask f dp hist bs = .ok out →
      ∃ items, validSeg x dp items ∧ dp + itemsLen items = x.length ∧
        out = finalizeBS (emitAll bs items) := by
  intro f
  induction f with
  | zero =>
    intro dp hist bs out hf hdp hok
    rw [compressTail] at hok
    by_cases h1 : result_max ≤ (finalizeBS bs).length
    · rw [if_pos h1] at hok
      simp at hok
    · rw [if_neg h1] at hok
      refine ⟨[], trivial, by simp [itemsLen]; omega, ?_⟩
      injection hok with hok
      rw [← hok]
      simp [emitAll]
  | succ f ih =>
    intro dp hist bs out hf hdp hok
    rw [compressTail] at hok
    by_cases h1 : dp < x.length
    · rw [if_pos h1] at hok
      by_cases h2 : result_max ≤ bsSize bs
      · rw [if_pos h2] at hok
        simp at hok
      · rw [if_neg h2] at hok
        obtain ⟨items, hv, hcov, hout⟩ := ih (dp + 1) _ _ out (by omega) (by omega) hok
        refine ⟨.lit (x.getD dp 0) :: items,
          ⟨h1, rfl, getD_lt_256 x hbytes dp, hv⟩, ?_, ?_⟩
        · rw [itemsLen_cons]
          simp only [itemLen]
          omega
        · rw [emitAll_cons]
          exact hout
    · rw [if_neg h1] at hok
      dsimp only at hok
      by_cases h2 : result_max ≤ (finalizeBS bs).length
      · rw [if_pos h2] at hok
        simp at hok
      · rw [if_neg h2] at hok
        refine ⟨[], trivial, by simp [itemsLen]; omega, ?_⟩
        injection hok with hok
        rw [← hok]
        simp [emitAll]

theorem compressMain_emits (x : List Nat) (gm gd rm : Nat) (fsb : Int) (skip : Bool)
    (mask : Nat) (hbytes : ∀ b ∈ x, b < 256) :
    ∀ (f dp : Nat) (hist : HistState) (bs : BitStream) (found : Bool) (out : List Nat),
      histInv hist dp →
      x.length + 1 ≤ dp + f →
      dp ≤ x.length →
      compressMain x gm gd rm fsb skip mask f dp hist bs found = .ok out →
      ∃ items, validSeg x dp items ∧ dp + itemsLen items = x.length ∧
        out = finalizeBS (emitAll bs items) := by
  intro f
  induction f with
  | zero =>
    intro dp hist bs found out _ hf hdp _
    omega
  | succ f ih =>
    intro dp hist bs found out hinv hf hdp hok
    rw [compressMain] at hok
    by_cases hc : dp + 3 < x.length
    · rw [if_pos hc] at hok
      by_cases h2 : rm ≤ bsSize bs
      · rw [if_pos h2] at hok
        simp at hok
      by_cases h3 : found = false ∧ fsb ≤ (bsSize bs : Int)
      · rw [if_neg h2, if_pos h3] at hok
        simp at hok
      rw [if_neg h2, if_neg h3] at hok
      cases hfm : pglz_find_match x hist.hstart hist.entries dp gm gd mask with
        | some p =>
          obtain ⟨ml, mo⟩ := p
          rw [hfm] at hok
          dsimp only at hok
          obtain ⟨h4ml, hml273, hmlL, hmo1, hmo4094, hmodp, hmprop⟩ :=
            pglz_find_match_sound x hist dp gm gd mask ml mo hinv (by omega) hfm
          have hmin : min (dp + ml) x.length = dp + ml := min_eq_left hmlL
          have hgetD : ∀ j, j < ml → x.getD (dp + j) 0 = x.getD (dp + j - mo) 0 := by
            intro j hj
            have hb := hmprop j hj
            rw [byteAt_eq_getD x hbytes, byteAt_eq_getD x hbytes] at hb
            have he : dp - mo + j = dp + j - mo := by omega
            rw [he] at hb
            exact hb
          have hrec : compressMain x gm gd rm fsb skip mask f (dp + ml)
              (if skip then pglz_hist_add hist x dp mask
               else histAddRange hist x dp ml mask)
              (pglz_out_tag bs ml mo) true = .ok out := by
            cases skip with
            | true =>
              rw [if_pos rfl] at hok ⊢
              rw [hmin] at hok
              exact hok
            | false =>
              rw [if_neg (by simp)] at hok ⊢
              exact hok
          have hinv2 : histInv (if skip then pglz_hist_add hist x dp mask
              else histAddRange hist x dp ml mask) (dp + ml) := by
            cases skip with
            | true =>
              rw [if_pos rfl]
              exact histInv_mono _ _ _ (histInv_add hist x dp mask hinv) (by omega)
            | false =>
              rw [if_neg (by simp)]
              exact histAddRange_inv x ml hist dp mask hinv
          obtain ⟨items, hv, hcov, hout⟩ := ih (dp + ml) _ _ true out hinv2
            (by omega) hmlL hrec
          refine ⟨.tag ml mo :: items, ⟨by omega, hml273, hmo1, by omega, hmodp,
            hmlL, hgetD, hv⟩, ?_, ?_⟩
          · rw [itemsLen_cons]
            simp only [itemLen]
            omega
          · rw [emitAll_cons]
            exact hout
        | none =>
          rw [hfm] at hok
          dsimp only at hok
          obtain ⟨items, hv, hcov, hout⟩ := ih (dp + 1) _ _ found out
            (histInv_add hist x dp mask hinv) (by omega) (by omega) hok
          refine ⟨.lit (x.getD dp 0) :: items,
            ⟨by omega, rfl, getD_lt_256 x hbytes dp, hv⟩, ?_, ?_⟩
          · rw [itemsLen_cons]
            simp only [itemLen]
            omega
          · rw [emitAll_cons]
            exact hout
    · rw [if_neg hc] at hok
      exact compressTail_emits x rm mask hbytes f dp hist bs out (by omega) hdp hok

theorem itemsLen_append (a b : List Item) :
    itemsLen (a ++ b) = itemsLen a + itemsLen b := by
  simp [itemsLen]

theorem itemsLen_cons' (it : Item) (r : List Item) :
    itemsLen (it :: r) = itemLen it + itemsLen r := by
  simp [itemsLen]

theorem validSeg_append (x : List Nat) :
    ∀ (a b : List Item) (n : Nat),
      validSeg x n (a ++ b) ↔ (validSeg x n a ∧ validSeg x (n + itemsLen a) b) := by
  intro a
  induction a with
  | nil =>
    intro b n
    simp [validSeg, itemsLen]
  | cons it a iha =>
    intro b n
    rw [show (it :: a) ++ b = it :: (a ++ b) from rfl]
    cases it with
    | lit v =>
      rw [show validSeg x n (Item.lit v :: (a ++ b)) =
          (n < x.length ∧ v = x.getD n 0 ∧ v < 256 ∧ validSeg x (n + 1) (a ++ b)) from rfl]
      rw [show validSeg x n (Item.lit v :: a) =
          (n < x.length ∧ v = x.getD n 0 ∧ v < 256 ∧ validSeg x (n + 1) a) from rfl]
      rw [iha b (n + 1)]
      rw [show n + itemsLen (Item.lit v :: a) = n + 1 + itemsLen a from by
        rw [itemsLen_cons']
        simp [itemLen]
        omega]
      tauto
    | tag l o =>
      rw [show validSeg x n (Item.tag l o :: (a ++ b)) =
          (3 ≤ l ∧ l ≤ PGLZ_MAX_MATCH ∧ 1 ≤ o ∧ o ≤ 4095 ∧ o ≤ n ∧ n + l ≤ x.length ∧
           (∀ j, j < l → x.getD (n + j) 0 = x.getD (n + j - o) 0) ∧
           validSeg x (n + l) (a ++ b)) from rfl]
      rw [show validSeg x n (Item.tag l o :: a) =
          (3 ≤ l ∧ l ≤ PGLZ_MAX_MATCH ∧ 1 ≤ o ∧ o ≤ 4095 ∧ o ≤ n ∧ n + l ≤ x.length ∧
           (∀ j, j < l → x.getD (n + j) 0 = x.getD (n + j - o) 0) ∧
           validSeg x (n + l) a) from rfl]
      rw [iha b (n + l)]
      rw [show n + itemsLen (Item.tag l o :: a) = n + l + itemsLen a from by
        rw [itemsLen_cons']
        simp [itemLen]
        omega]
      tauto

theorem valid_tag_period (x : List Nat) (n len off : Nat)
    (h1 : 1 ≤ off) (hop : off ≤ n)
    (hm : ∀ j, j < len → x.getD (n + j) 0 = x.getD (n + j - off) 0) :
    ∀ j, j < len → x.getD (n + j) 0 = x.getD (n - off + j % off) 0 := by
  have aux : ∀ (fuel j : Nat), j ≤ fuel → j < len →
      x.getD (n + j) 0 = x.getD (n - off + j % off) 0 := by
    intro fuel
    induction fuel with
    | zero =>
      intro j hjf hj
      have hj0 : j = 0 := by omega
      subst hj0
      rw [Nat.zero_mod]
      have h := hm 0 hj
      rw [show n + 0 - off = n - off from by omega] at h
      rw [show n - off + 0 = n - off from by omega]
      exact h
    | succ fuel ih =>
      intro j hjf hj
      by_cases hjo : j < off
      · rw [Nat.mod_eq_of_lt hjo]
        have h := hm j hj
        rw [show n + j - off = n - off + j from by omega] at h
        exact h
      · push_neg at hjo
        have h2 := hm j hj
        rw [show n + j - off = n + (j - off) from by omega] at h2
        have h3 := ih (j - off) (by omega) (by omega)
        rw [h2, h3, Nat.mod_eq_sub_mod hjo]
  exact fun j hj => aux j j (le_refl j) hj

theorem copy_extends (x : List Nat) (n len off : Nat)
    (hn : n + len ≤ x.length) (h1 : 1 ≤ off) (hop : off ≤ n)
    (hm : ∀ j, j < len → x.getD (n + j) 0 = x.getD (n + j - off) 0) :
    pglz_copy (x.take n) off len = x.take (n + len) := by
  have hnx : n ≤ x.length := by omega
  have hlt : (x.take n).length = n := by
    rw [List.length_take]
    omega
  rw [pglz_copy_spec _ _ _ h1 (by rw [hlt]; exact hop)]
  rw [List.take_add]
  congr 1
  apply List.ext_getElem
  · rw [periodExt_length, List.length_take, List.length_drop]
    omega
  · intro i hi1 hi2
    have hilen : i < len := by rwa [periodExt_length] at hi1
    have hper := valid_tag_period x n len off h1 hop hm i hilen
    have hidx : n - off + i % off < n := by
      have := Nat.mod_lt i (show 0 < off by omega)
      omega
    have hL : (periodExt (x.take n) off len)[i] =
        (x.take n).getD ((x.take n).length - off + i % off) 0 := by
      simp [periodExt]
    have hR : ((x.drop n).take len)[i] = x.getD (n + i) 0 := by
      rw [List.getElem_take, List.getElem_drop, List.getD_eq_getElem x 0 (by omega)]
    rw [hL, hR, hlt]
    have hgd : (x.take n).getD (n - off + i % off) 0 = x.getD (n - off + i % off) 0 := by
      rw [List.getD_eq_getElem (x.take n) 0 (by rw [hlt]; omega), List.getElem_take]
      exact (List.getD_eq_getElem x 0 (by omega)).symm
    rw [hgd]
    exact hper.symm

theorem tag_bytes_short (len off : Nat) (h3 : 3 ≤ len) (h17 : len ≤ 17) (ho : off ≤ 4095) :
    itemBytes (.tag len off) = [off / 256 * 16 + (len - 3), off % 256] := by
  simp only [itemBytes, if_neg (by omega : ¬ 17 < len)]
  rw [off_and_f00 off ho, and_ff, hi_shiftr, lor_nib _ (by omega) _ (by omega)]
  have hlt : off / 256 * 16 + (len - 3) < 256 := by omega
  rw [Nat.mod_eq_of_lt hlt, Nat.mod_eq_of_lt (Nat.mod_lt _ (by norm_num))]

theorem tag_decode_short (len off : Nat) (h3 : 3 ≤ len) (h17 : len ≤ 17) (ho : off ≤ 4095) :
    ((off / 256 * 16 + (len - 3)) &&& 0x0f) + 3 = len ∧
    ((((off / 256 * 16 + (len - 3)) &&& 0xf0) <<< 4) ||| (off % 256)) = off := by
  have hhi : off / 256 < 16 := by omega
  have hd : len - 3 < 16 := by omega
  constructor
  · rw [and_0f]
    omega
  · rw [and_f0_split _ hhi _ hd, hi_shiftl, lor_hi_split _ hhi _ (Nat.mod_lt _ (by norm_num))]
    omega

theorem tag_bytes_long (len off : Nat) (h18 : 18 ≤ len) (h273 : len ≤ 273) (ho : off ≤ 4095) :
    itemBytes (.tag len off) = [off / 256 * 16 + 15, off % 256, len - 18] := by
  simp only [itemBytes, if_pos (by omega : 17 < len)]
  rw [off_and_f00 off ho, and_ff, hi_shiftr, lor_nib _ (by omega) 15 (by norm_num)]
  have hlt : off / 256 * 16 + 15 < 256 := by omega
  rw [Nat.mod_eq_of_lt hlt, Nat.mod_eq_of_lt (Nat.mod_lt _ (by norm_num)),
    Nat.mod_eq_of_lt (by omega : len - 18 < 256)]

theorem tag_decode_long (off : Nat) (ho : off ≤ 4095) :
    ((off / 256 * 16 + 15) &&& 0x0f) + 3 = 18 ∧
    ((((off / 256 * 16 + 15) &&& 0xf0) <<< 4) ||| (off % 256)) = off := by
  have hhi : off / 256 < 16 := by omega
  constructor
  · rw [and_0f]
    omega
  · rw [and_f0_split _ hhi 15 (by norm_num), hi_shiftl,
      lor_hi_split _ hhi _ (Nat.mod_lt _ (by norm_num))]
    omega

theorem decompItems_src_nil (raw ctrl k : Nat) (out : List Nat) :
    decompItems raw ctrl k [] out = .ok ([], out) := by
  cases k with
  | zero => rfl
  | succ k => rfl

theorem take_snoc_getD (x : List Nat) (n : Nat) (hn : n < x.length) :
    x.take n ++ [x.getD n 0] = x.take (n + 1) := by
  rw [List.take_succ, List.getElem?_eq_getElem hn, List.getD_eq_getElem x 0 hn]
  rfl

theorem decompItems_replay (x : List Nat) :
    ∀ (g : List Item) (k n : Nat) (rest : List Nat),
      g.length ≤ k →
      validSeg x n g →
      n + itemsLen g ≤ x.length →
      decompItems x.length (ctrlOf g) k (flatBytes g ++ rest) (x.take n) =
        decompItems x.length 0 (k - g.length) rest (x.take (n + itemsLen g)) := by
  intro g
  induction g with
  | nil =>
    intro k n rest _ _ _
    simp [ctrlOf, flatBytes, itemsLen]
  | cons it g ihg =>
    intro k n rest hk hv hlen
    obtain ⟨k', rfl⟩ : ∃ k', k = k' + 1 := ⟨k - 1, by simp at hk; omega⟩
    have hgl : (it :: g).length ≤ k' + 1 := hk
    cases it with
    | lit b =>
      obtain ⟨hnx, hbv, hb256, hv'⟩ := hv
      have htn : (x.take n).length = n := by
        rw [List.length_take]
        omega
      rw [show ctrlOf (Item.lit b :: g) = 2 * ctrlOf g from by simp [ctrlOf, itemBit]]
      rw [show flatBytes (Item.lit b :: g) ++ rest = (b % 256) :: (flatBytes g ++ rest) from by
        simp [flatBytes, itemBytes]]
      simp only [decompItems]
      rw [if_pos (by rw [htn]; omega)]
      rw [if_neg (by rw [Nat.and_one_is_mod]; omega)]
      have hb' : b % 256 = b := Nat.mod_eq_of_lt hb256
      rw [show x.take n ++ [b % 256] = x.take (n + 1) from by
        rw [hb', hbv]; exact take_snoc_getD x n hnx]
      rw [show (2 * ctrlOf g) >>> 1 = ctrlOf g from by
        rw [Nat.shiftRight_one]; omega]
      rw [ihg k' (n + 1) rest
        (by have h4 := hgl; simp only [List.length_cons] at h4; omega) hv'
        (by have h5 := hlen; rw [itemsLen_cons'] at h5; simp only [itemLen] at h5; omega)]
      rw [show k' + 1 - (Item.lit b :: g).length = k' - g.length from by simp]
      rw [show n + itemsLen (Item.lit b :: g) = n + 1 + itemsLen g from by
        rw [itemsLen_cons']; simp [itemLen]; omega]
    | tag len off =>
      obtain ⟨h3, h273, ho1, ho4095, hopos, hposlen, hmatch, hv'⟩ := hv
      have htn : (x.take n).length = n := by
        rw [List.length_take]
        omega
      have hcopy : pglz_copy (x.take n) off len = x.take (n + len) :=
        copy_extends x n len off hposlen ho1 hopos hmatch
      have hctrl : ctrlOf (Item.tag len off :: g) = 1 + 2 * ctrlOf g := by
        simp [ctrlOf, itemBit]
      have hrec : decompItems x.length (ctrlOf g) k' (flatBytes g ++ rest)
            (x.take (n + len)) =
          decompItems x.length 0 (k' - g.length) rest (x.take (n + len + itemsLen g)) :=
        ihg k' (n + len) rest
          (by have h4 := hgl; simp only [List.length_cons] at h4; omega) hv'
          (by have h5 := hlen; rw [itemsLen_cons'] at h5; simp only [itemLen] at h5; omega)
      have hfin1 : k' + 1 - (Item.tag len off :: g).length = k' - g.length := by
        simp
      have hfin2 : n + itemsLen (Item.tag len off :: g) = n + len + itemsLen g := by
        rw [itemsLen_cons']
        simp [itemLen]
        omega
      by_cases hshort : len ≤ 17
      · have hdec := tag_decode_short len off h3 hshort ho4095
        rw [show flatBytes (Item.tag len off :: g) ++ rest =
            (off / 256 * 16 + (len - 3)) :: (off % 256) :: (flatBytes g ++ rest) from by
          rw [show flatBytes (Item.tag len off :: g) =
              itemBytes (Item.tag len off) ++ flatBytes g from rfl]
          rw [tag_bytes_short len off h3 hshort ho4095]
          simp]
        simp only [decompItems]
        rw [if_pos (by rw [htn]; omega)]
        rw [if_pos (by rw [hctrl, Nat.and_one_is_mod]; omega)]
        rw [hdec.1, hdec.2]
        rw [if_neg (by omega)]
        rw [if_neg (by
          rw [htn]
          push_neg
          exact ⟨by omega, by omega⟩)]
        rw [htn]
        rw [show min len (x.length - n) = len from by omega]
        rw [hcopy]
        rw [show (ctrlOf (Item.tag len off :: g)) >>> 1 = ctrlOf g from by
          rw [hctrl, Nat.shiftRight_one]; omega]
        rw [hrec, hfin1, hfin2]
      · have h18 : 18 ≤ len := by omega
        have hdec := tag_decode_long off ho4095
        rw [show flatBytes (Item.tag len off :: g) ++ rest =
            (off / 256 * 16 + 15) :: (off % 256) :: (len - 18) ::
              (flatBytes g ++ rest) from by
          rw [show flatBytes (Item.tag len off :: g) =
              itemBytes (Item.tag len off) ++ flatBytes g from rfl]
          rw [tag_bytes_long len off h18 h273 ho4095]
          simp]
        simp only [decompItems]
        rw [if_pos (by rw [htn]; omega)]
        rw [if_pos (by rw [hctrl, Nat.and_one_is_mod]; omega)]
        rw [hdec.1, hdec.2]
        rw [if_pos rfl]
        rw [if_neg (by
          rw [htn]
          push_neg
          exact ⟨by omega, by omega⟩)]
        rw [htn]
        rw [show min (18 + (len - 18)) (x.length - n) = len from by omega]
        rw [hcopy]
        rw [show (ctrlOf (Item.tag len off :: g)) >>> 1 = ctrlOf g from by
          rw [hctrl, Nat.shiftRight_one]; omega]
        rw [hrec, hfin1, hfin2]

theorem itemLen_pos_of_valid (x : List Nat) (n : Nat) (it : Item) (rest : List Item)
    (hv : validSeg x n (it :: rest)) : 1 ≤ itemLen it := by
  cases it with
  | lit b => simp [itemLen]
  | tag l o =>
    obtain ⟨h3, _⟩ := hv
    simp [itemLen]
    omega

theorem decompLoop_replay (x : List Nat) :
    ∀ (f : Nat) (items : List Item) (n : Nat),
      items.length ≤ f →
      validSeg x n items →
      n + itemsLen items = x.length →
      decompLoop x.length f (chunkSer items) (x.take n) = .ok ([], x) := by
  intro f
  induction f with
  | zero =>
    intro items n hlen hv hcov
    have hnil : items = [] := List.length_eq_zero.mp (by omega)
    subst hnil
    simp [itemsLen] at hcov
    rw [chunkSer_nil, decompLoop, hcov, List.take_length]
  | succ f ih =>
    intro items n hlen hv hcov
    cases items with
    | nil =>
      simp [itemsLen] at hcov
      rw [chunkSer_nil, decompLoop, hcov, List.take_length]
    | cons it rest0 =>
      have hne : (it :: rest0) ≠ [] := by simp
      have hsplit := (List.take_append_drop 8 (it :: rest0)).symm
      have hvboth := (validSeg_append x ((it :: rest0).take 8) ((it :: rest0).drop 8) n).mp
        (by rw [← hsplit]; exact hv)
      have hlsplit : itemsLen ((it :: rest0).take 8) + itemsLen ((it :: rest0).drop 8) =
          itemsLen (it :: rest0) := by
        rw [← itemsLen_append, List.take_append_drop]
      have hpos : 1 ≤ itemLen it := itemLen_pos_of_valid x n it rest0 hv
      have hn1 : n + 1 ≤ x.length := by
        rw [itemsLen_cons'] at hcov
        omega
      have htn : (x.take n).length = n := by
        rw [List.length_take]
        omega
      rw [show chunkSer (it :: rest0) =
          ctrlOf ((it :: rest0).take 8) ::
            (flatBytes ((it :: rest0).take 8) ++ chunkSer ((it :: rest0).drop 8)) from by
        rw [chunkSer, dif_neg hne]
        simp]
      rw [decompLoop]
      rw [if_pos (by rw [htn]; omega)]
      rw [decompItems_replay x ((it :: rest0).take 8) 8 n (chunkSer ((it :: rest0).drop 8))
        (by simp) hvboth.1 (by omega)]
      have hok : decompItems x.length 0 (8 - ((it :: rest0).take 8).length)
          (chunkSer ((it :: rest0).drop 8)) (x.take (n + itemsLen ((it :: rest0).take 8))) =
          .ok (chunkSer ((it :: rest0).drop 8),
            x.take (n + itemsLen ((it :: rest0).take 8))) := by
        by_cases h8 : (it :: rest0).length ≤ 8
        · have hdrop : (it :: rest0).drop 8 = [] := List.drop_eq_nil_of_le h8
          rw [hdrop, chunkSer_nil]
          exact decompItems_src_nil _ _ _ _
        · have htl : ((it :: rest0).take 8).length = 8 := by
            rw [List.length_take]
            omega
          rw [htl]
          rfl
      rw [hok]
      dsimp only
      exact ih ((it :: rest0).drop 8) (n + itemsLen ((it :: rest0).take 8))
        (by simp at hlen ⊢; omega) hvboth.2 (by omega)

theorem flatBytes_length_ge (g : List Item) : g.length ≤ (flatBytes g).length := by
  induction g with
  | nil => simp [flatBytes]
  | cons it r ih =>
    rw [show flatBytes (it :: r) = itemBytes it ++ flatBytes r from rfl]
    rw [List.length_append, List.length_cons]
    have h1 : 1 ≤ (itemBytes it).length := by
      cases it with
      | lit b => simp [itemBytes]
      | tag l o =>
        rw [itemBytes]
        split_ifs <;> simp
    omega

theorem chunkSer_length_ge_aux :
    ∀ (f : Nat) (items : List Item), items.length ≤ f →
      items.length ≤ (chunkSer items).length := by
  intro f
  induction f with
  | zero =>
    intro items h
    have : items = [] := List.length_eq_zero.mp (by omega)
    subst this
    simp
  | succ f ih =>
    intro items h
    cases items with
    | nil => simp
    | cons it rest0 =>
      rw [chunkSer, dif_neg (by simp : ¬ (it :: rest0) = [])]
      have h1 := flatBytes_length_ge ((it :: rest0).take 8)
      have h2 := ih ((it :: rest0).drop 8) (by simp at h ⊢; omega)
      have h3 : ((it :: rest0).take 8).length = min 8 (it :: rest0).length :=
        List.length_take 8 (it :: rest0)
      have h4 : ((it :: rest0).drop 8).length = (it :: rest0).length - 8 :=
        List.length_drop 8 (it :: rest0)
      simp only [List.length_cons] at h3 h4 ⊢
      simp only [List.length_append, List.length_cons]
      omega

theorem chunkSer_length_ge (items : List Item) :
    items.length ≤ (chunkSer items).length :=
  chunkSer_length_ge_aux items.length items (le_refl _)

/--
C1: for every byte input `x` and every strategy, a successful
`pglz_compress` run (`.ok out`) produces bytes that `pglz_decompress`,
given `rawsize = x.length` and `check_complete = true`, decodes back to
exactly `x`.
-/
theorem C1_roundtrip (x : List Nat) (S : PGLZ_Strategy) (out : List Nat)
    (hbytes : ∀ b ∈ x, b < 256)
    (hok : pglz_compressE x S = .ok out) :
    pglz_decompressE out x.length true = .ok x := by
  rw [pglz_compressE] at hok
  by_cases hguard : S.match_size_good ≤ 0 ∨ (x.length : Int) < S.min_input_size ∨
      S.max_input_size < (x.length : Int)
  · rw [if_pos hguard] at hok
    simp at hok
  · rw [if_neg hguard] at hok
    obtain ⟨items, hv, hcov, hout⟩ := compressMain_emits x _ _ _ _ _ _ hbytes
      (x.length + 1) 0 initHist initBS false out (histInv_init 0) (by omega) (by omega) hok
    rw [emit_serializes] at hout
    subst hout
    have hrep := decompLoop_replay x ((chunkSer items).length + 1) items 0
      (by have := chunkSer_length_ge items; omega) hv (by simpa using hcov)
    simp only [List.take_zero] at hrep
    rw [pglz_decompressE, hrep]
    show (if true = true ∧ (x.length ≠ x.length ∨ ([] : List Nat) ≠ []) then Except.error x
      else Except.ok x) = Except.ok x
    rw [if_neg (by simp)]

/-- Witness for C1: the 8-byte run `AAAAAAAA` compresses (strategy_always)
to `[2, 65, 4, 1]`, which decompresses back to the original. -/
theorem C1_roundtrip_witness :
    pglz_decompressE [2, 65, 4, 1] (List.replicate 8 65).length true =
      .ok (List.replicate 8 65) :=
  C1_roundtrip (List.replicate 8 65) PGLZ_strategy_always [2, 65, 4, 1]
    (by decide) (by rfl)

theorem finalizeBS_length (bs : BitStream) : (finalizeBS bs).length = bsSize bs := by
  rw [finalizeBS, bsSize]
  cases bs.hasCtrl <;> simp <;> omega

theorem bsSize_out_ctrl (bs : BitStream) :
    bsSize bs ≤ bsSize (pglz_out_ctrl bs) ∧ bsSize (pglz_out_ctrl bs) ≤ bsSize bs + 1 := by
  rw [pglz_out_ctrl]
  by_cases h : bs.ctrl &&& 0xff = 0
  · rw [if_pos h]
    simp only [bsSize]
    cases hc : bs.hasCtrl <;> simp [hc] <;> omega
  · rw [if_neg h]
    exact ⟨le_refl _, by omega⟩

theorem bsSize_out_literal (bs : BitStream) (b : Nat) :
    bsSize bs + 1 ≤ bsSize (pglz_out_literal bs b) ∧
    bsSize (pglz_out_literal bs b) ≤ bsSize bs + 2 := by
  have h := bsSize_out_ctrl bs
  rw [pglz_out_literal]
  rw [show bsSize { pglz_out_ctrl bs with
        cur := (pglz_out_ctrl bs).cur ++ [b % 256],
        ctrl := (pglz_out_ctrl bs).ctrl * 2 % 256 } =
      bsSize (pglz_out_ctrl bs) + 1 from by rw [bsSize, bsSize]; simp; omega]
  omega

theorem bsSize_out_tag (bs : BitStream) (len off : Nat) :
    bsSize bs + 2 ≤ bsSize (pglz_out_tag bs len off) ∧
    bsSize (pglz_out_tag bs len off) ≤ bsSize bs + 4 := by
  have h := bsSize_out_ctrl bs
  rw [pglz_out_tag]
  split_ifs with hl
  · rw [show bsSize { pglz_out_ctrl bs with
          ctrlb := (pglz_out_ctrl bs).ctrlb ||| (pglz_out_ctrl bs).ctrl,
          ctrl := (pglz_out_ctrl bs).ctrl * 2 % 256,
          cur := (pglz_out_ctrl bs).cur ++
            [(((off &&& 0xf00) >>> 4) ||| 0x0f) % 256, (off &&& 0xff) % 256,
              (len - 18) % 256] } =
        bsSize (pglz_out_ctrl bs) + 3 from by rw [bsSize, bsSize]; simp; omega]
    omega
  · rw [show bsSize { pglz_out_ctrl bs with
          ctrlb := (pglz_out_ctrl bs).ctrlb ||| (pglz_out_ctrl bs).ctrl,
          ctrl := (pglz_out_ctrl bs).ctrl * 2 % 256,
          cur := (pglz_out_ctrl bs).cur ++
            [(((off &&& 0xf00) >>> 4) ||| (len - 3)) % 256, (off &&& 0xff) % 256] } =
        bsSize (pglz_out_ctrl bs) + 2 from by rw [bsSize, bsSize]; simp; omega]
    omega

theorem compressTail_ok_bounds (x : List Nat) (rm mask : Nat) :
    ∀ (f dp : Nat) (hist : HistState) (bs : BitStream) (out : List Nat),
      compressTail x rm mask f dp hist bs = .ok out →
      bsSize bs ≤ out.length ∧ out.length < rm := by
  intro f
  induction f with
  | zero =>
    intro dp hist bs out hok
    rw [compressTail] at hok
    by_cases h1 : rm ≤ (finalizeBS bs).length
    · rw [if_pos h1] at hok
      simp at hok
    · rw [if_neg h1] at hok
      injection hok with hok
      rw [finalizeBS_length] at h1
      rw [← hok, finalizeBS_length]
      omega
  | succ f ih =>
    intro dp hist bs out hok
    rw [compressTail] at hok
    by_cases h1 : dp < x.length
    · rw [if_pos h1] at hok
      by_cases h2 : rm ≤ bsSize bs
      · rw [if_pos h2] at hok
        simp at hok
      · rw [if_neg h2] at hok
        have hb := ih (dp + 1) _ _ out hok
        have hl := bsSize_out_literal bs (x.getD dp 0)
        omega
    · rw [if_neg h1] at hok
      dsimp only at hok
      by_cases h2 : rm ≤ (finalizeBS bs).length
      · rw [if_pos h2] at hok
        simp at hok
      · rw [if_neg h2] at hok
        injection hok with hok
        rw [finalizeBS_length] at h2
        rw [← hok, finalizeBS_length]
        omega

theorem compressMain_ok_bounds (x : List Nat) (gm gd rm : Nat) (fsb : Int) (skip : Bool)
    (mask : Nat) :
    ∀ (f dp : Nat) (hist : HistState) (bs : BitStream) (found : Bool) (out : List Nat),
      compressMain x gm gd rm fsb skip mask f dp hist bs found = .ok out →
      bsSize bs ≤ out.length ∧ out.length < rm := by
  intro f
  induction f with
  | zero =>
    intro dp hist bs found out hok
    exact compressTail_ok_bounds x rm mask 0 dp hist bs out hok
  | succ f ih =>
    intro dp hist bs found out hok
    rw [compressMain] at hok
    by_cases hc : dp + 3 < x.length
    · rw [if_pos hc] at hok
      by_cases h2 : rm ≤ bsSize bs
      · rw [if_pos h2] at hok
        simp at hok
      by_cases h3 : found = false ∧ fsb ≤ (bsSize bs : Int)
      · rw [if_neg h2, if_pos h3] at hok
        simp at hok
      rw [if_neg h2, if_neg h3] at hok
      cases hfm : pglz_find_match x hist.hstart hist.entries dp gm gd mask with
      | some p =>
        obtain ⟨ml, mo⟩ := p
        rw [hfm] at hok
        dsimp only at hok
        have ht := bsSize_out_tag bs ml mo
        cases skip with
        | true =>
          rw [if_pos rfl] at hok
          have hb := ih _ _ _ true out hok
          omega
        | false =>
          rw [if_neg (by simp)] at hok
          have hb := ih _ _ _ true out hok
          omega
      | none =>
        rw [hfm] at hok
        dsimp only at hok
        have hl := bsSize_out_literal bs (x.getD dp 0)
        have hb := ih _ _ _ found out hok
        omega
    · rw [if_neg hc] at hok
      exact compressTail_ok_bounds x rm mask f dp hist bs out hok

theorem compressTail_ok_pos (x : List Nat) (rm mask : Nat)
    (f dp : Nat) (hist : HistState) (bs : BitStream) (out : List Nat)
    (hdp : dp < x.length)
    (hok : compressTail x rm mask (f + 1) dp hist bs = .ok out) :
    1 ≤ out.length := by
  rw [compressTail, if_pos hdp] at hok
  by_cases h2 : rm ≤ bsSize bs
  · rw [if_pos h2] at hok
    simp at hok
  · rw [if_neg h2] at hok
    have hb := compressTail_ok_bounds x rm mask f (dp + 1) _ _ out hok
    have hl := bsSize_out_literal bs (x.getD dp 0)
    omega

theorem compressMain_ok_pos (x : List Nat) (gm gd rm : Nat) (fsb : Int) (skip : Bool)
    (mask : Nat) (f dp : Nat) (hist : HistState) (bs : BitStream) (found : Bool)
    (out : List Nat) (hdp : dp < x.length) (hf : x.length + 1 ≤ dp + f)
    (hok : compressMain x gm gd rm fsb skip mask f dp hist bs found = .ok out) :
    1 ≤ out.length := by
  obtain ⟨f1, rfl⟩ : ∃ f1, f = f1 + 1 := ⟨f - 1, by omega⟩
  rw [compressMain] at hok
  by_cases hc : dp + 3 < x.length
  · rw [if_pos hc] at hok
    by_cases h2 : rm ≤ bsSize bs
    · rw [if_pos h2] at hok
      simp at hok
    by_cases h3 : found = false ∧ fsb ≤ (bsSize bs : Int)
    · rw [if_neg h2, if_pos h3] at hok
      simp at hok
    rw [if_neg h2, if_neg h3] at hok
    cases hfm : pglz_find_match x hist.hstart hist.entries dp gm gd mask with
    | some p =>
      obtain ⟨ml, mo⟩ := p
      rw [hfm] at hok
      dsimp only at hok
      have ht := bsSize_out_tag bs ml mo
      cases skip with
      | true =>
        rw [if_pos rfl] at hok
        have hb := compressMain_ok_bounds x gm gd rm fsb true mask f1 _ _ _ true out hok
        omega
      | false =>
        rw [if_neg (by simp)] at hok
        have hb := compressMain_ok_bounds x gm gd rm fsb false mask f1 _ _ _ true out hok
        omega
    | none =>
      rw [hfm] at hok
      dsimp only at hok
      have hl := bsSize_out_literal bs (x.getD dp 0)
      have hb := compressMain_ok_bounds x gm gd rm fsb skip mask f1 _ _ _ found out hok
      omega
  · rw [if_neg hc] at hok
    obtain ⟨f2, rfl⟩ : ∃ f2, f1 = f2 + 1 := ⟨f1 - 1, by omega⟩
    exact compressTail_ok_pos x rm mask f2 dp hist bs out hdp hok

/--
C4: a successful `pglz_compress` run returns a positive byte count that is
strictly below `slen * (100 - rate) / 100`, where `rate` is
`min_comp_rate` clamped into [0, 99] (a failed run is the `-1` return,
`.error`).
-/
theorem C4_compress_result_bound (x : List Nat) (S : PGLZ_Strategy) (out : List Nat)
    (hok : pglz_compressE x S = .ok out) :
    0 < out.length ∧
    out.length < x.length *
      (100 - ((if S.min_comp_rate < 0 then 0
               else if 99 < S.min_comp_rate then 99 else S.min_comp_rate) : Int).toNat) /
      100 := by
  rw [pglz_compressE] at hok
  by_cases hguard : S.match_size_good ≤ 0 ∨ (x.length : Int) < S.min_input_size ∨
      S.max_input_size < (x.length : Int)
  · rw [if_pos hguard] at hok
    simp at hok
  · rw [if_neg hguard] at hok
    have hb := compressMain_ok_bounds x _ _ _ _ _ _ (x.length + 1) 0 initHist initBS
      false out hok
    set r : Nat := ((if S.min_comp_rate < 0 then 0
        else if 99 < S.min_comp_rate then 99 else S.min_comp_rate) : Int).toNat with hr
    have hrm : (if INT_MAX / 100 < (x.length : Int) then x.length / 100 * (100 - r)
        else x.length * (100 - r) / 100) ≤ x.length * (100 - r) / 100 := by
      split_ifs with hbig
      · rw [Nat.le_div_iff_mul_le (by norm_num)]
        calc x.length / 100 * (100 - r) * 100 = x.length / 100 * 100 * (100 - r) := by ring
        _ ≤ x.length * (100 - r) :=
          Nat.mul_le_mul_right _ (Nat.div_mul_le_self x.length 100)
      · exact le_refl _
    have hlt : out.length < if INT_MAX / 100 < (x.length : Int) then
        x.length / 100 * (100 - r) else x.length * (100 - r) / 100 := hb.2
    constructor
    · by_cases hx0 : x.length = 0
      · exfalso
        rw [hx0] at hlt
        simp at hlt
      · exact compressMain_ok_pos x _ _ _ _ _ _ (x.length + 1) 0 initHist initBS false out
          (by omega) (by omega) hok
    · omega

/-- Witness for C4 at the 8-byte run `AAAAAAAA` under strategy_always:
the 4 output bytes are positive and below `8 * 100 / 100 = 8`. -/
theorem C4_compress_result_bound_witness :
    0 < ([2, 65, 4, 1] : List Nat).length ∧
    ([2, 65, 4, 1] : List Nat).length < (List.replicate 8 65).length *
      (100 - ((if PGLZ_strategy_always.min_comp_rate < 0 then 0
               else if 99 < PGLZ_strategy_always.min_comp_rate then 99
               else PGLZ_strategy_always.min_comp_rate) : Int).toNat) / 100 :=
  C4_compress_result_bound (List.replicate 8 65) PGLZ_strategy_always [2, 65, 4, 1] (by rfl)

theorem compressTail_size_bound (x : List Nat) (rm mask : Nat) :
    ∀ (f dp : Nat) (hist : HistState) (bs : BitStream),
      bsSize bs ≤ rm + 3 →
      exceptSize (compressTail x rm mask f dp hist bs) ≤ rm + 3 := by
  intro f
  induction f with
  | zero =>
    intro dp hist bs hb
    rw [compressTail]
    by_cases h1 : rm ≤ (finalizeBS bs).length
    · rw [if_pos h1]
      show (finalizeBS bs).length ≤ rm + 3
      rw [finalizeBS_length]
      omega
    · rw [if_neg h1]
      show (finalizeBS bs).length ≤ rm + 3
      rw [finalizeBS_length]
      omega
  | succ f ih =>
    intro dp hist bs hb
    rw [compressTail]
    by_cases h1 : dp < x.length
    · rw [if_pos h1]
      by_cases h2 : rm ≤ bsSize bs
      · rw [if_pos h2]
        exact hb
      · rw [if_neg h2]
        refine ih (dp + 1) _ _ ?_
        have hl := bsSize_out_literal bs (x.getD dp 0)
        omega
    · rw [if_neg h1]
      dsimp only
      by_cases h2 : rm ≤ (finalizeBS bs).length
      · rw [if_pos h2]
        show (finalizeBS bs).length ≤ rm + 3
        rw [finalizeBS_length]
        omega
      · rw [if_neg h2]
        show (finalizeBS bs).length ≤ rm + 3
        rw [finalizeBS_length]
        omega

theorem compressMain_size_bound (x : List Nat) (gm gd rm : Nat) (fsb : Int) (skip : Bool)
    (mask : Nat) :
    ∀ (f dp : Nat) (hist : HistState) (bs : BitStream) (found : Bool),
      bsSize bs ≤ rm + 3 →
      exceptSize (compressMain x gm gd rm fsb skip mask f dp hist bs found) ≤ rm + 3 := by
  intro f
  induction f with
  | zero =>
    intro dp hist bs found hb
    exact compressTail_size_bound x rm mask 0 dp hist bs hb
  | succ f ih =>
    intro dp hist bs found hb
    rw [compressMain]
    by_cases hc : dp + 3 < x.length
    · rw [if_pos hc]
      by_cases h2 : rm ≤ bsSize bs
      · rw [if_pos h2]
        exact hb
      by_cases h3 : found = false ∧ fsb ≤ (bsSize bs : Int)
      · rw [if_neg h2, if_pos h3]
        exact hb
      rw [if_neg h2, if_neg h3]
      cases hfm : pglz_find_match x hist.hstart hist.entries dp gm gd mask with
      | some p =>
        obtain ⟨ml, mo⟩ := p
        dsimp only
        have ht := bsSize_out_tag bs ml mo
        cases skip with
        | true =>
          rw [if_pos rfl]
          exact ih _ _ _ true (by omega)
        | false =>
          rw [if_neg (by simp)]
          exact ih _ _ _ true (by omega)
      | none =>
        dsimp only
        have hl := bsSize_out_literal bs (x.getD dp 0)
        exact ih _ _ _ found (by omega)
    · rw [if_neg hc]
      exact compressTail_size_bound x rm mask f dp hist bs hb

/--
C10: a `pglz_compress` run — including one that gives up with the `-1`
return — never writes more than `slen + 3` output bytes, i.e. every store
lands within the first `slen + 4` bytes of the destination: each loop
iteration first checks the output cursor against `result_max ≤ slen` and
then writes at most 4 further bytes.
-/
theorem C10_compress_write_bound (x : List Nat) (S : PGLZ_Strategy) :
    exceptSize (pglz_compressE x S) < x.length + 4 := by
  rw [pglz_compressE]
  by_cases hguard : S.match_size_good ≤ 0 ∨ (x.length : Int) < S.min_input_size ∨
      S.max_input_size < (x.length : Int)
  · rw [if_pos hguard]
    show (0 : Nat) < x.length + 4
    omega
  · rw [if_neg hguard]
    refine lt_of_le_of_lt
      (compressMain_size_bound x _ _ _ _ _ _ (x.length + 1) 0 initHist initBS false
        (by simp [bsSize, initBS]))
      ?_
    have hsub : ∀ r : Nat, 100 - r ≤ 100 := fun r => Nat.sub_le 100 r
    by_cases hbig : INT_MAX / 100 < (x.length : Int)
    · rw [if_pos hbig]
      have h1 : x.length / 100 * (100 -
          ((if S.min_comp_rate < 0 then 0
            else if 99 < S.min_comp_rate then 99 else S.min_comp_rate) : Int).toNat) ≤
          x.length / 100 * 100 := Nat.mul_le_mul_left _ (hsub _)
      have h2 : x.length / 100 * 100 ≤ x.length := Nat.div_mul_le_self x.length 100
      omega
    · rw [if_neg hbig]
      have h1 : x.length * (100 -
          ((if S.min_comp_rate < 0 then 0
            else if 99 < S.min_comp_rate then 99 else S.min_comp_rate) : Int).toNat) / 100 ≤
          x.length * 100 / 100 :=
        Nat.div_le_div_right (Nat.mul_le_mul_left _ (hsub _))
      have h2 : x.length * 100 / 100 = x.length := by
        rw [Nat.mul_div_cancel _ (by norm_num)]
      omega

theorem findLoopSimd_eq (x : List Nat) (entries : Nat → PGLZ_HistEntry)
    (input good_drop : Nat) (hdp4 : input + 4 ≤ x.length) :
    ∀ (b : Nat) (hentno : Int) (len off good : Nat),
      (len = 0 ∨ (4 ≤ len ∧ len ≤ PGLZ_MAX_MATCH ∧ input + len ≤ x.length)) →
      findLoopSimd x entries input good_drop b hentno len off good =
        findLoop x entries input good_drop b hentno len off good := by
  intro b
  induction b with
  | zero =>
    intro hentno len off good _
    rw [findLoopSimd, findLoop]
  | succ b ih =>
    intro hentno len off good hlen
    rw [findLoopSimd, findLoop]
    by_cases h1 : hentno = -1
    · rw [if_pos h1, if_pos h1]
    · rw [if_neg h1, if_neg h1]
      dsimp only
      by_cases h2 : (0x0fff : Int) ≤ (input : Int) - (((entries hentno.toNat).pos : Nat) : Int)
      · rw [if_pos h2, if_pos h2]
      · rw [if_neg h2, if_neg h2]
        set hp := (entries hentno.toNat).pos with hhp
        set EXT := (((x.length : Int) - ((input : Int) + 4)) ⊓
            ((PGLZ_MAX_MATCH : Int) - 4)).toNat with hEXTdef
        set T := 4 + scalarExt x (input + 4) (hp + 4) EXT with hTdef
        have hEXT : EXT = min (x.length - (input + 4)) (PGLZ_MAX_MATCH - 4) := by
          rw [hEXTdef]
          simp only [PGLZ_MAX_MATCH]
          omega
        have hse := scalarExt_le x EXT (input + 4) (hp + 4)
        have hT4 : 4 ≤ T := by omega
        have hT273 : T ≤ PGLZ_MAX_MATCH := by
          rw [hTdef, hEXT] at *
          simp only [PGLZ_MAX_MATCH] at *
          omega
        have hTL : input + T ≤ x.length := by
          rw [hTdef, hEXT] at *
          omega
        have hTinv : T = 0 ∨ (4 ≤ T ∧ T ≤ PGLZ_MAX_MATCH ∧ input + T ≤ x.length) :=
          Or.inr ⟨hT4, hT273, hTL⟩
        by_cases hmc : memcmp x input hp 4 = true
        · simp only [if_pos hmc]
          by_cases hspec : 16 ≤ len ∧ 4 < len
          · simp only [if_pos hspec]
            obtain h0 | ⟨hl4, hl273, hlL⟩ := hlen
            · omega
            by_cases hblock : memcmp x (input + 4) (hp + 4) (len - 4) = true
            · simp only [if_pos hblock]
              have hpre := memcmp_spec x (input + 4) (hp + 4) (len - 4) hblock
              have hext : extendMatch x PGLZ_MAX_MATCH (input + len) (hp + len) len =
                  len + scalarExt x (input + len) (hp + len)
                    (min (x.length - (input + len)) (PGLZ_MAX_MATCH - len)) :=
                extendMatch_eq x PGLZ_MAX_MATCH len (input + len) (hp + len) hl273
                  (by omega)
              have hdecomp : scalarExt x (input + 4) (hp + 4) EXT =
                  (len - 4) + scalarExt x (input + 4 + (len - 4)) (hp + 4 + (len - 4))
                    (EXT - (len - 4)) :=
                scalarExt_add x (len - 4) EXT (input + 4) (hp + 4) hpre
                  (by rw [hEXT]; simp only [PGLZ_MAX_MATCH] at *; omega)
              have hi1 : input + 4 + (len - 4) = input + len := by omega
              have hi2 : hp + 4 + (len - 4) = hp + len := by omega
              have hi3 : EXT - (len - 4) =
                  min (x.length - (input + len)) (PGLZ_MAX_MATCH - len) := by
                rw [hEXT]
                simp only [PGLZ_MAX_MATCH] at *
                omega
              rw [hi1, hi2, hi3] at hdecomp
              have hTeq : extendMatch x PGLZ_MAX_MATCH (input + len) (hp + len) len = T := by
                rw [hext, hTdef, hdecomp]
                omega
              have hlenT : len ≤ T := by
                rw [← hTeq, hext]
                omega
              simp only [hTeq]
              by_cases hTl : T ≤ len
              · simp only [if_pos hTl]
                have hnlt : ¬ len < T := by omega
                simp only [if_neg hnlt]
                rw [ih _ len off _ (Or.inr ⟨hl4, hl273, hlL⟩)]
              · simp only [if_neg hTl]
                have hlt : len < T := by omega
                simp only [if_pos hlt]
                rw [ih _ T _ _ hTinv]
            · simp only [if_neg hblock]
              have hnall : ¬ (∀ k, k < len - 4 →
                  byteAt x (input + 4 + k) = byteAt x (hp + 4 + k)) := by
                intro hall
                exact hblock (by rw [memcmp]; exact decide_eq_true hall)
              push_neg at hnall
              obtain ⟨k, hk, hne⟩ := hnall
              have hle := scalarExt_le_of_mismatch x EXT (input + 4) (hp + 4) k hne
              have hTl : T ≤ len := by omega
              simp only [if_pos hTl]
              rw [ih _ len off _ (Or.inr ⟨hl4, hl273, hlL⟩)]
          · simp only [if_neg hspec]
            have hE4 : extendMatch x PGLZ_MAX_MATCH (input + 4) (hp + 4) 4 = T := by
              rw [extendMatch_eq x PGLZ_MAX_MATCH 4 (input + 4) (hp + 4)
                (by simp [PGLZ_MAX_MATCH]) (by simp [PGLZ_MAX_MATCH]), hTdef, hEXT]
            simp only [hE4]
            by_cases hTl : T ≤ len
            · simp only [if_pos hTl]
              have hnlt : ¬ len < T := by omega
              simp only [if_neg hnlt]
              rw [ih _ len off _ hlen]
            · simp only [if_neg hTl]
              have hlt : len < T := by omega
              simp only [if_pos hlt]
              rw [ih _ T _ _ hTinv]
        · simp only [if_neg hmc]
          rw [ih _ len off _ hlen]

theorem pglz_find_match_simd_eq (x : List Nat) (hstart : Nat → Int)
    (entries : Nat → PGLZ_HistEntry) (input good_match good_drop mask : Nat)
    (hdp4 : input + 4 ≤ x.length) :
    pglz_find_match_simd x hstart entries input good_match good_drop mask =
      pglz_find_match x hstart entries input good_match good_drop mask := by
  rw [pglz_find_match_simd, pglz_find_match]
  rw [findLoopSimd_eq x entries input good_drop hdp4 PGLZ_MAX_CHAIN
    (hstart (pglz_hist_idx x input mask)) 0 0 good_match (Or.inl rfl)]

theorem compressMainSimd_eq (x : List Nat) (gm gd rm : Nat) (fsb : Int) (mask : Nat) :
    ∀ (f dp : Nat) (hist : HistState) (bs : BitStream) (found : Bool),
      compressMainSimd x gm gd rm fsb mask f dp hist bs found =
        compressMain x gm gd rm fsb false mask f dp hist bs found := by
  intro f
  induction f with
  | zero =>
    intro dp hist bs found
    rw [compressMainSimd, compressMain]
  | succ f ih =>
    intro dp hist bs found
    rw [compressMainSimd, compressMain]
    by_cases hc : dp + 3 < x.length
    · simp only [if_pos hc]
      rw [pglz_find_match_simd_eq x hist.hstart hist.entries dp gm gd mask (by omega)]
      by_cases h2 : rm ≤ bsSize bs
      · simp only [if_pos h2]
      · simp only [if_neg h2]
        by_cases h3 : found = false ∧ fsb ≤ (bsSize bs : Int)
        · simp only [if_pos h3]
        · simp only [if_neg h3]
          cases hm : pglz_find_match x hist.hstart hist.entries dp gm gd mask with
          | some p =>
            obtain ⟨ml, mo⟩ := p
            dsimp only
            rw [if_neg (by simp)]
            exact ih (dp + ml) (histAddRange hist x dp ml mask)
              (pglz_out_tag bs ml mo) true
          | none =>
            dsimp only
            exact ih (dp + 1) (pglz_hist_add hist x dp mask)
              (pglz_out_literal bs (x.getD dp 0)) found
    · simp only [if_neg hc]

/--
C9: with `skip_after_match = false`, the SIMD variant of `pglz_compress`
(pg_lzcompress_simd.c, scalar fallback match extension) returns exactly
the same result — the same output bytes on success and the same written
count on failure — as the strategy_skip variant: for every candidate on a
chain the two match-length computations select the same (length, offset).
-/
theorem C9_simd_variant_equivalent (x : List Nat) (S : PGLZ_Strategy)
    (hskip : S.skip_after_match = false) :
    pglz_compressSimdE x S = pglz_compressE x S := by
  rw [pglz_compressSimdE, pglz_compressE, hskip]
  by_cases hguard : S.match_size_good ≤ 0 ∨ (x.length : Int) < S.min_input_size ∨
      S.max_input_size < (x.length : Int)
  · rw [if_pos hguard, if_pos hguard]
  · rw [if_neg hguard, if_neg hguard]
    exact compressMainSimd_eq x _ _ _ _ _ (x.length + 1) 0 initHist initBS false

/-- Witness for C9: a concrete 40-byte run under the default strategy
(whose `skip_after_match` is false). -/
theorem C9_simd_variant_equivalent_witness :
    pglz_compressSimdE (List.replicate 40 7) PGLZ_strategy_default =
      pglz_compressE (List.replicate 40 7) PGLZ_strategy_default :=
  C9_simd_variant_equivalent (List.replicate 40 7) PGLZ_strategy_default (by rfl)

end Pglz
